import Mathlib

/-!
Verification of the "important" repository: a static analyzer and autofixer
for Python import statements, together with its fixture sample project.

Strings are embedded as `List Char` (Python `str` is a sequence of
characters); Python `int` is embedded as `Int`; machine-level concerns do
not arise.  Fallible operations return `Except`/`Option`.
-/

namespace Important

/-- Python slice `s[:k]` on a string: a nonnegative bound takes the first
`k` characters; a negative bound counts from the end (clamped at zero). -/
def pySliceTo (s : List Char) (k : Int) : List Char :=
  if 0 ≤ k then s.take k.toNat else s.take (((s.length : Int) + k).toNat)

namespace SampleProject

/-- From `src/examples/sample_project/src/sample_project/utils.py`,
`truncate_string`: truncate a string to a maximum length with ellipsis. -/
def truncate_string (text : List Char) (max_length : Int) : List Char :=
  if (text.length : Int) ≤ max_length then text
  else pySliceTo text (max_length - 3) ++ ['.', '.', '.']

end SampleProject

namespace OtherLibrary

/-- From `src/tests/application/other_library/utils/formatting.py`,
`truncate_string`: truncate a string to a maximum length, with a
configurable suffix. -/
def truncate_string (s : List Char) (max_length : Int)
    (suffix : List Char) : List Char :=
  if (s.length : Int) ≤ max_length then s
  else pySliceTo s (max_length - (suffix.length : Int)) ++ suffix

end OtherLibrary

namespace SampleProject

/-- From `cache.py`: a single cache entry with metadata.  Times are embedded
as `Int` (seconds); `time.time()` becomes an explicit `now` argument. -/
structure CacheEntry (V : Type) where
  value : V
  created_at : Int
  last_accessed : Int
  access_count : Nat
  ttl_seconds : Option Int

/-- `CacheEntry.is_expired`: expired when a ttl is set and the age exceeds it. -/
def CacheEntry.isExpired (now : Int) (e : CacheEntry V) : Bool :=
  match e.ttl_seconds with
  | none => false
  | some t => decide (now - e.created_at > t)

/-- `CacheEntry.touch`: update access metadata. -/
def CacheEntry.touch (now : Int) (e : CacheEntry V) : CacheEntry V :=
  { e with last_accessed := now, access_count := e.access_count + 1 }

/-- Python `a or b` on optional floats: `None` and `0.0` are falsy. -/
def pyOrOpt (a b : Option Int) : Option Int :=
  match a with
  | none => b
  | some t => if t = 0 then b else some t

/-- From `cache.py`: in-memory cache with LRU eviction.  The `OrderedDict`
is embedded as an insertion-ordered association list. -/
structure MemoryCache (K V : Type) where
  data : List (K × CacheEntry V)
  max_size : Int
  default_ttl : Option Int
  hits : Nat
  misses : Nat

/-- `MemoryCache.__init__`. -/
def MemoryCache.empty (max_size : Int) (default_ttl : Option Int) :
    MemoryCache K V :=
  { data := [], max_size := max_size, default_ttl := default_ttl, hits := 0, misses := 0 }

/-- `MemoryCache.size`: the number of items in the cache. -/
def MemoryCache.size (c : MemoryCache K V) : Nat :=
  c.data.length

/-- `MemoryCache.get`: a miss counts, an expired entry is deleted, a hit is
moved to the end (most recently used) and touched. -/
def MemoryCache.get [DecidableEq K] (c : MemoryCache K V) (now : Int) (key : K) :
    Option V × MemoryCache K V :=
  match c.data.find? (fun p => decide (p.1 = key)) with
  | none => (none, { c with misses := c.misses + 1 })
  | some (_, entry) =>
    if entry.isExpired now then
      (none, { c with data := c.data.filter (fun p => !decide (p.1 = key)),
                      misses := c.misses + 1 })
    else
      (some entry.value,
        { c with data := c.data.filter (fun p => !decide (p.1 = key))
                           ++ [(key, entry.touch now)],
                 hits := c.hits + 1 })

/-- The `while len(self._data) >= self._max_size: self._data.popitem(last=False)`
loop of `MemoryCache.set`; popping from an empty `OrderedDict` raises `KeyError`,
modelled as `Except.error`. -/
def evictLoop (max_size : Int) : List (K × CacheEntry V) →
    Except Unit (List (K × CacheEntry V))
  | [] => if max_size ≤ 0 then .error () else .ok []
  | x :: xs =>
    if max_size ≤ ((x :: xs).length : Int) then evictLoop max_size xs
    else .ok (x :: xs)

/-- `MemoryCache.set`: evict oldest entries while at capacity, then insert
(or replace in place, as `OrderedDict` assignment does on an existing key). -/
def MemoryCache.set [DecidableEq K] (c : MemoryCache K V) (now : Int) (key : K)
    (value : V) (ttl : Option Int) : Except Unit (MemoryCache K V) :=
  match evictLoop c.max_size c.data with
  | .error e => .error e
  | .ok data' =>
    let entry : CacheEntry V :=
      { value := value, created_at := now, last_accessed := now, access_count := 0,
        ttl_seconds := pyOrOpt ttl c.default_ttl }
    if data'.any (fun p => decide (p.1 = key)) then
      .ok { c with data := data'.map (fun p => if p.1 = key then (key, entry) else p) }
    else
      .ok { c with data := data' ++ [(key, entry)] }

/-- `MemoryCache.delete`: delete a value, reporting whether it was present. -/
def MemoryCache.delete [DecidableEq K] (c : MemoryCache K V) (key : K) :
    Bool × MemoryCache K V :=
  if c.data.any (fun p => decide (p.1 = key)) then
    (true, { c with data := c.data.filter (fun p => !decide (p.1 = key)) })
  else
    (false, c)

/-- `MemoryCache.clear`: clear all values, returning how many were removed. -/
def MemoryCache.clear (c : MemoryCache K V) : Nat × MemoryCache K V :=
  (c.data.length, { c with data := [] })

end SampleProject

/-! ### Import analyzer core, modelled from the spec

The analyzer core of this repository (the "Important" extension) is not part
of the source snapshot under `src/`: only its fixture corpus is.  The
definitions in this section are therefore modelled from the spec (sections
3, 4.1-4.5, 6 and 8), faithful to its words.
-/

/-- Modelled from the spec: §3, `ImportRecord.kind ∈ {plain, from}`. -/
inductive ImportKind
  | plain
  | fromImport
deriving DecidableEq

/-- Modelled from the spec: §3, `enclosing_context ∈ {top_level,
type_checking_block, function_local}`. -/
inductive EnclosingContext
  | top_level
  | type_checking_block
  | function_local
deriving DecidableEq

/-- Modelled from the spec: §3, `ModuleCategory`. -/
inductive ModuleCategory
  | standard_library
  | third_party
  | first_party
  | local_path
  | typing_exempt
deriving DecidableEq

/-- Modelled from the spec: §3, `ImportRecord`.  A dotted module path is a
list of segments (each a `List Char`); a plain record may carry several
module paths (`import a, b, c`); `is_relative` is the leading-dot count. -/
structure ImportRecord where
  kind : ImportKind
  is_relative : Nat
  paths : List (List (List Char))
  imported_names : List (List Char)
  enclosing_context : EnclosingContext
deriving DecidableEq

/-- Modelled from the spec: §6 Configuration.  `projectTree` is the set of
directory paths of the project's own source tree (each a list of segments);
the declared local-source roots are its root-position entries, since §4.3
requires that only a root-position match may count.  `packagePath` is the
absolute package path of the analyzed file, used to resolve relative
imports from the project's first-party/local root. -/
structure Configuration where
  standardLibraryNames : List (List Char)
  typingExemptModules : List (List Char)
  firstPartyRoots : List (List Char)
  projectTree : List (List (List Char))
  packagePath : List (List Char)
  maxLineWidth : Nat

/-- Modelled from the spec: §4.3 Module Classifier.  Categories are checked
in strict priority order 1→4, first match wins; the match is on the root
(first) segment of the dotted path only; an unmatched module defaults to
third_party (§7 ConfigurationGap). -/
def classify (cfg : Configuration) (module_path : List (List Char)) : ModuleCategory :=
  match module_path with
  | [] => ModuleCategory.third_party
  | root :: _ =>
    if root ∈ cfg.standardLibraryNames then ModuleCategory.standard_library
    else if root ∈ cfg.typingExemptModules then ModuleCategory.typing_exempt
    else if root ∈ cfg.firstPartyRoots then ModuleCategory.first_party
    else if root ∈ cfg.projectTree.filterMap List.head? then ModuleCategory.local_path
    else ModuleCategory.third_party

/-- Modelled from the spec: §4.4 import-order grouping
`{standard_library, third_party, first_party, local_path}`. -/
def catIndex : ModuleCategory → Nat
  | ModuleCategory.standard_library => 0
  | ModuleCategory.third_party => 1
  | ModuleCategory.first_party => 2
  | ModuleCategory.local_path => 3
  | ModuleCategory.typing_exempt => 4

/-- Modelled from the spec: §4.5 tokens that can immediately follow a name
occurrence in the file body. -/
inductive NextToken
  | lparen
  | dot
  | other
deriving DecidableEq

/-- Modelled from the spec: §4.5, one reference to an imported name in the
body, together with the token immediately following it. -/
structure UsageRef where
  name : List Char
  next : NextToken
deriving DecidableEq

def isUpperChar (c : Char) : Bool := decide ('A' ≤ c) && decide (c ≤ 'Z')

def isLowerChar (c : Char) : Bool := decide ('a' ≤ c) && decide (c ≤ 'z')

def isDigitChar (c : Char) : Bool := decide ('0' ≤ c) && decide (c ≤ '9')

/-- Modelled from the spec: §4.5, a PascalCase name (begins with an
uppercase letter). -/
def isPascalCase (s : List Char) : Bool :=
  match s with
  | [] => false
  | c :: _ => isUpperChar c

/-- Modelled from the spec: §4.5, a lower/snake-cased name. -/
def isSnakeCase (s : List Char) : Bool :=
  !s.isEmpty && s.all (fun c => isLowerChar c || decide (c = '_') || isDigitChar c)

/-- Modelled from the spec: §4.5.  Only a qualified reference (dot-access)
on the lower/snake-cased import name is evidence the import is used as a
module; PascalCase names followed by `.` are never module-style evidence. -/
def moduleStyleEvidence (r : UsageRef) : Bool :=
  decide (r.next = NextToken.dot) && isSnakeCase r.name

/-- Modelled from the spec: §4.4 import-modules-not-symbols rule: fires on a
`from`-import bringing names from a non-exempt, non-type-checking context,
whose names are used without the defining module also being accessed in
module style. -/
def importModulesNotSymbols (cat : ModuleCategory) (record : ImportRecord)
    (refs : List UsageRef) : Bool :=
  decide (record.kind = ImportKind.fromImport)
    && !decide (cat = ModuleCategory.typing_exempt)
    && !decide (record.enclosing_context = EnclosingContext.type_checking_block)
    && refs.any (fun r => decide (r.name ∈ record.imported_names))
    && !(refs.any (fun r => decide (r.name ∈ record.imported_names) && moduleStyleEvidence r))

/-- Modelled from the spec: §4.1 scanner string state: per-character
"inside a string literal" flags, from a given starting state.  The
delimiter toggles the state; the delimiter character itself is marked with
the state it opens or closes. -/
def scanFrom (st : Bool) : List Char → List Bool
  | [] => []
  | c :: cs => if c = '"' then (!st) :: scanFrom (!st) cs else st :: scanFrom st cs

/-- Modelled from the spec: §4.1, the scanner's string state left after
consuming the text. -/
def finalStringState (st : Bool) : List Char → Bool
  | [] => st
  | c :: cs => finalStringState (if c = '"' then !st else st) cs

/-- Modelled from the spec: §4.1 failure policy: an unterminated string
literal is detected exactly when the scanner is still inside a literal at
end of input. -/
def hasUnterminatedString (t : List Char) : Bool :=
  finalStringState false t

/-- Left/right strip of blanks (Python `str.strip` for the spaces that
the grammar allows around imported names). -/
def trimChars (l : List Char) : List Char :=
  ((l.dropWhile fun c => c = ' ').reverse.dropWhile fun c => c = ' ').reverse

/-- Join parts with a single-character separator. -/
def joinSep (sep : Char) (parts : List (List Char)) : List Char :=
  List.intercalate [sep] parts

def importKeyword : List Char := ['i', 'm', 'p', 'o', 'r', 't']

/-- Modelled from the spec: §4.2 Import Statement Parser, restricted to
single-line statements (one logical line per record; the continuation
joining of §4.2 precedes this step).  `import a, b, c` yields one plain
record carrying all module paths; `from <dots><path> import <names>`
yields one from-record with the leading-dot count in `is_relative`. -/
def parseImportLine (line : List Char) : Option ImportRecord :=
  match line with
  | 'i' :: 'm' :: 'p' :: 'o' :: 'r' :: 't' :: ' ' :: rest =>
    some { kind := ImportKind.plain, is_relative := 0,
           paths := (rest.splitOn ',').map fun s => (trimChars s).splitOn '.',
           imported_names := [],
           enclosing_context := EnclosingContext.top_level }
  | 'f' :: 'r' :: 'o' :: 'm' :: ' ' :: rest =>
    match rest.splitOn ' ' with
    | dp :: iw :: nsParts =>
      if iw = importKeyword then
        some { kind := ImportKind.fromImport,
               is_relative := (dp.takeWhile fun c => c = '.').length,
               paths := [(dp.dropWhile fun c => c = '.').splitOn '.'],
               imported_names := ((joinSep ' ' nsParts).splitOn ',').map trimChars,
               enclosing_context := EnclosingContext.top_level }
      else none
    | _ => none
  | _ => none

/-- Modelled from the spec: §2 Rewriter: canonical single-line rendering of
one record. -/
def renderRecord (r : ImportRecord) : List Char :=
  match r.kind with
  | ImportKind.plain =>
    importKeyword ++ ' ' :: joinSep ',' (r.paths.map (joinSep '.'))
  | ImportKind.fromImport =>
    ['f', 'r', 'o', 'm', ' ']
      ++ List.replicate r.is_relative '.' ++ joinSep '.' (r.paths.headD [])
      ++ ' ' :: importKeyword ++ ' ' :: joinSep ',' r.imported_names

/-- Modelled from the spec: §4.4 no-multiple-imports condition: a plain
statement importing more than one top-level module. -/
def noMultipleImportsViolation (r : ImportRecord) : Bool :=
  decide (r.kind = ImportKind.plain) && decide (1 < r.paths.length)

/-- Modelled from the spec: §4.4 no-relative-imports condition:
`is_relative > 0`. -/
def noRelativeImportsViolation (r : ImportRecord) : Bool :=
  decide (0 < r.is_relative)

/-- Case-sensitive lexicographic comparison on character code points
(the ascending alphabetical order of §4.4). -/
def lexLeb : List Char → List Char → Bool
  | [], _ => true
  | _ :: _, [] => false
  | a :: as, b :: bs =>
    if a < b then true else if a = b then lexLeb as bs else false

/-- The full dotted module path of a record, as sorting key (§4.4). -/
def moduleKey (r : ImportRecord) : List Char :=
  joinSep '.' (r.paths.headD [])

def recCategory (cfg : Configuration) (r : ImportRecord) : ModuleCategory :=
  classify cfg (r.paths.headD [])

/-- Modelled from the spec: §4.4 import-order: group by category in spec
order, alphabetically (case-sensitively) within a group. -/
def recLeb (cfg : Configuration) (a b : ImportRecord) : Bool :=
  decide (catIndex (recCategory cfg a) < catIndex (recCategory cfg b))
    || (decide (catIndex (recCategory cfg a) = catIndex (recCategory cfg b))
        && lexLeb (moduleKey a) (moduleKey b))

/-- Adjacent-pair boolean sortedness check. -/
def sortedByB {α : Type} (le : α → α → Bool) : List α → Bool
  | [] => true
  | [_] => true
  | a :: b :: t => le a b && sortedByB le (b :: t)

/-- §4.4 tie-break: sort imported names alphabetically, case-sensitively. -/
def sortNames (ns : List (List Char)) : List (List Char) :=
  ns.insertionSort fun a b => lexLeb a b = true

/-- Modelled from the spec: §3 Diagnostic (rule identity only; spans and
messages do not bear on the claims). -/
inductive RuleId
  | no_multiple_imports
  | import_order
  | no_relative_imports
  | structural_warning
deriving DecidableEq

structure Diagnostic where
  rule_id : RuleId
deriving DecidableEq

def namesSortedOK (r : ImportRecord) : Bool :=
  sortedByB lexLeb r.imported_names

/-- Modelled from the spec: §4.4 rule engine over the parsed records,
restricted to the three structural, auto-fixable rules which the fix
pipeline discharges (no-multiple-imports, no-relative-imports,
import-order). -/
def checkRecords (cfg : Configuration) (records : List ImportRecord) : List Diagnostic :=
  (records.filter noMultipleImportsViolation).map (fun _ => ⟨RuleId.no_multiple_imports⟩)
    ++ (records.filter noRelativeImportsViolation).map (fun _ => ⟨RuleId.no_relative_imports⟩)
    ++ (if sortedByB (recLeb cfg) records && records.all namesSortedOK then []
        else [⟨RuleId.import_order⟩])

/-- Modelled from the spec: §4.4 no-multiple-imports fix: split a plain
record into one record per module path, preserving relative order. -/
def splitMulti (r : ImportRecord) : List ImportRecord :=
  match r.kind with
  | ImportKind.plain => r.paths.map fun p => { r with paths := [p] }
  | ImportKind.fromImport => [r]

/-- The rendered text of the no-multiple-imports fix: one plain-import
statement per module, each on its own line. -/
def splitMultiFixText (r : ImportRecord) : List Char :=
  joinSep '\n' ((splitMulti r).map renderRecord)

/-- Modelled from the spec: §4.4 no-relative-imports fix: strip the leading
dots and resolve the path absolutely from the package path of the file
(`k` leading dots go up `k - 1` package levels). -/
def resolveRelative (pkg : List (List Char)) (dots : Nat) (p : List (List Char)) :
    List (List Char) :=
  pkg.take (pkg.length + 1 - dots) ++ p

def fixRelative (cfg : Configuration) (r : ImportRecord) : ImportRecord :=
  if r.is_relative = 0 then r
  else { r with is_relative := 0,
                paths := r.paths.map (resolveRelative cfg.packagePath r.is_relative) }

/-- §4.4 tie-break fix: the names of a from-import are sorted. -/
def fixNames (r : ImportRecord) : ImportRecord :=
  { r with imported_names := sortNames r.imported_names }

/-- Modelled from the spec: §9: the fix pipeline is the fixed staged
split-then-resolve-then-sort sequence (wrapping is modelled separately by
`wrapFromImport`). -/
def normalizeRecords (cfg : Configuration) (records : List ImportRecord) :
    List ImportRecord :=
  (((records.map splitMulti).flatten).map (fun r => fixNames (fixRelative cfg r))).insertionSort
    fun a b => recLeb cfg a b = true

def parsedRecords (lines : List (List Char)) : List ImportRecord :=
  lines.filterMap parseImportLine

/-- Modelled from the spec: §6 "fix" over the logical lines: the rewritten
canonical import block followed by the preserved non-import content. -/
def fixLines (cfg : Configuration) (lines : List (List Char)) : List (List Char) :=
  (normalizeRecords cfg (parsedRecords lines)).map renderRecord
    ++ lines.filter fun l => (parseImportLine l).isNone

/-- Modelled from the spec: §6 "fix" operation on the file text. -/
def fix (cfg : Configuration) (t : List Char) : List Char :=
  joinSep '\n' (fixLines cfg (t.splitOn '\n'))

/-- Modelled from the spec: §6 "check" operation on the file text. -/
def check (cfg : Configuration) (t : List Char) : List Diagnostic :=
  checkRecords cfg (parsedRecords (t.splitOn '\n'))

/-- Modelled from the spec: §4.1/§7: the full analysis never fails; an
unterminated string literal contributes a structural warning in front of
the rule diagnostics. -/
def analyze (cfg : Configuration) (t : List Char) : List Diagnostic :=
  (if hasUnterminatedString t then [⟨RuleId.structural_warning⟩] else []) ++ check cfg t

/-- Modelled from the spec: Concrete scenario 4: the rewriter sorts a
from-import's names first, then decides wrapping by the configured width. -/
structure WrappedFromImport where
  names : List (List Char)
  multiline : Bool
deriving DecidableEq

def wrapFromImport (cfg : Configuration) (r : ImportRecord) : WrappedFromImport :=
  { names := sortNames r.imported_names,
    multiline := decide (cfg.maxLineWidth < (renderRecord (fixNames r)).length) }

/-- The configuration's package path consists of well-formed identifiers. -/
def ValidConfig (cfg : Configuration) : Prop :=
  ∀ seg ∈ cfg.packagePath, seg ≠ [] ∧ '.' ∉ seg ∧ ' ' ∉ seg ∧ ',' ∉ seg ∧ '\n' ∉ seg

def PlainPathOK (p : List (List Char)) : Prop :=
  p ≠ [] ∧ (∀ seg ∈ p, '.' ∉ seg ∧ ',' ∉ seg ∧ '\n' ∉ seg)
    ∧ trimChars (joinSep '.' p) = joinSep '.' p

def FromPathOK (p : List (List Char)) : Prop :=
  p ≠ [] ∧ (∀ seg ∈ p, '.' ∉ seg ∧ ' ' ∉ seg ∧ '\n' ∉ seg)
    ∧ (joinSep '.' p).takeWhile (fun c => c = '.') = []

def FromNamesOK (ns : List (List Char)) : Prop :=
  ns ≠ [] ∧ ∀ n ∈ ns, ',' ∉ n ∧ trimChars n = n ∧ '\n' ∉ n

/-- The shape of records produced by the parser (and preserved by the fix
pipeline): exactly what rendering needs in order to parse back. -/
def RecordOK (r : ImportRecord) : Prop :=
  r.enclosing_context = EnclosingContext.top_level
    ∧ ((r.kind = ImportKind.plain ∧ r.is_relative = 0 ∧ r.imported_names = []
          ∧ r.paths ≠ [] ∧ ∀ p ∈ r.paths, PlainPathOK p)
        ∨ (r.kind = ImportKind.fromImport
            ∧ ∃ p, r.paths = [p] ∧ FromPathOK p ∧ FromNamesOK r.imported_names))

/-- A fully normalized record: parser shape, single path, absolute path,
sorted names. -/
def NormalRecord (r : ImportRecord) : Prop :=
  RecordOK r ∧ r.is_relative = 0 ∧ (∃ p, r.paths = [p])
    ∧ sortNames r.imported_names = r.imported_names

end Important

open Important in
/-- C10: for every string `text` and integer `n ≥ 3`, the two independently
implemented truncation helpers agree: `sample_project.utils.truncate_string
text n` equals `other_library.utils.formatting.truncate_string text n "..."`;
both return `text` unchanged when `len text ≤ n`, otherwise the first `n-3`
characters followed by `"..."`, and the result's length never exceeds `n`. -/
theorem c10_truncate_string_equiv (text : List Char) (n : Int) (h : 3 ≤ n) :
    SampleProject.truncate_string text n
        = OtherLibrary.truncate_string text n ['.', '.', '.']
      ∧ ((text.length : Int) ≤ n → SampleProject.truncate_string text n = text)
      ∧ (n < (text.length : Int) →
          SampleProject.truncate_string text n
            = text.take (n - 3).toNat ++ ['.', '.', '.'])
      ∧ ((SampleProject.truncate_string text n).length : Int) ≤ n := by
  have hsuf : (((['.', '.', '.'] : List Char).length : Nat) : Int) = 3 := by norm_num
  refine ⟨?_, ?_, ?_, ?_⟩
  · unfold SampleProject.truncate_string OtherLibrary.truncate_string
    rw [hsuf]
  · intro hc
    simp [SampleProject.truncate_string, hc]
  · intro hc
    have hle : ¬(text.length : Int) ≤ n := by omega
    have h3 : (0 : Int) ≤ n - 3 := by omega
    simp [SampleProject.truncate_string, pySliceTo, hle, h3]
  · by_cases hle : (text.length : Int) ≤ n
    · simp [SampleProject.truncate_string, hle]
    · have h3 : (0 : Int) ≤ n - 3 := by omega
      have hcast : ((n - 3).toNat : Int) = n - 3 := Int.toNat_of_nonneg h3
      simp only [SampleProject.truncate_string, pySliceTo, if_neg hle, if_pos h3,
        List.length_append, List.length_take]
      have h3' : (['.', '.', '.'] : List Char).length = 3 := rfl
      rw [h3']
      push_cast
      omega

open Important in
/-- Witness for C10 at `text = "abcde"`, `n = 4`. -/
theorem c10_truncate_string_equiv_witness :
    (3 : Int) ≤ 4
      ∧ (SampleProject.truncate_string ['a', 'b', 'c', 'd', 'e'] 4
            = OtherLibrary.truncate_string ['a', 'b', 'c', 'd', 'e'] 4 ['.', '.', '.']
          ∧ ((['a', 'b', 'c', 'd', 'e'].length : Int) ≤ 4 →
              SampleProject.truncate_string ['a', 'b', 'c', 'd', 'e'] 4
                = ['a', 'b', 'c', 'd', 'e'])
          ∧ ((4 : Int) < (['a', 'b', 'c', 'd', 'e'].length : Int) →
              SampleProject.truncate_string ['a', 'b', 'c', 'd', 'e'] 4
                = ['a', 'b', 'c', 'd', 'e'].take ((4 : Int) - 3).toNat ++ ['.', '.', '.'])
          ∧ ((SampleProject.truncate_string ['a', 'b', 'c', 'd', 'e'] 4).length : Int) ≤ 4) :=
  ⟨by norm_num, c10_truncate_string_equiv ['a', 'b', 'c', 'd', 'e'] 4 (by norm_num)⟩

namespace Important

/-- Removing the elements satisfying `p` from a list containing one strictly
shrinks it. -/
theorem length_filter_not_lt {α : Type} (p : α → Bool) (l : List α) (x : α)
    (hx : x ∈ l) (hpx : p x = true) :
    (l.filter fun a => !p a).length < l.length := by
  have h := @List.length_eq_length_filter_add _ l p
  have hne : l.filter p ≠ [] := List.ne_nil_of_mem (List.mem_filter.2 ⟨hx, hpx⟩)
  have hpos : 0 < (l.filter p).length := List.length_pos.2 hne
  omega

/-- With a positive capacity the eviction loop of `MemoryCache.set` always
terminates normally with strictly fewer entries than the capacity. -/
theorem evictLoop_ok {K V : Type} (m : Int) (h : 1 ≤ m) :
    ∀ l : List (K × SampleProject.CacheEntry V),
      ∃ l', SampleProject.evictLoop m l = .ok l' ∧ (l'.length : Int) < m := by
  intro l
  induction l with
  | nil =>
    refine ⟨[], ?_, ?_⟩
    · simp only [SampleProject.evictLoop, if_neg (by omega : ¬m ≤ 0)]
    · simpa using h
  | cons x xs ih =>
    by_cases hc : m ≤ ((x :: xs).length : Int)
    · obtain ⟨l', hok, hlt⟩ := ih
      exact ⟨l', by simp only [SampleProject.evictLoop, if_pos hc]; exact hok, hlt⟩
    · exact ⟨x :: xs, by simp only [SampleProject.evictLoop, if_neg hc], by omega⟩

end Important

open Important SampleProject in
/-- C9: for every `MemoryCache` constructed with `max_size ≥ 1`, the invariant
`size ≤ max_size` holds initially and is preserved by `get`, `set`, `delete`
and `clear`; `set` first evicts oldest entries while at or above capacity, so
the count after `set` never exceeds `max_size`.  With `max_size ≤ 0`, `set`
pops from an empty `OrderedDict` and fails (`KeyError`). -/
theorem c9_memory_cache_invariant {K V : Type} [DecidableEq K]
    (c : MemoryCache K V) (now : Int) (key : K) (value : V) (ttl : Option Int)
    (hmax : 1 ≤ c.max_size) :
    (((MemoryCache.empty c.max_size none : MemoryCache K V).size : Int) ≤ c.max_size)
      ∧ ((c.size : Int) ≤ c.max_size →
          (((c.get now key).2.size : Int) ≤ c.max_size
            ∧ ((c.delete key).2.size : Int) ≤ c.max_size
            ∧ ((c.clear.2.size : Int) ≤ c.max_size)))
      ∧ (∃ c', c.set now key value ttl = .ok c' ∧ (c'.size : Int) ≤ c.max_size)
      ∧ (∀ m : Int, m ≤ 0 →
          (MemoryCache.empty m none : MemoryCache K V).set now key value ttl
            = .error ()) := by
  refine ⟨?_, ?_, ?_, ?_⟩
  · simp only [MemoryCache.empty, MemoryCache.size, List.length_nil, Nat.cast_zero]
    omega
  · intro hinv
    have hinv' : (c.data.length : Int) ≤ c.max_size := hinv
    refine ⟨?_, ?_, ?_⟩
    · rcases hf : c.data.find? (fun p => decide (p.1 = key)) with _ | ⟨k', entry⟩
      · simpa only [MemoryCache.get, hf, MemoryCache.size] using hinv
      · have hmem : (k', entry) ∈ c.data := List.mem_of_find?_eq_some hf
        have hp : (fun q : K × CacheEntry V => decide (q.1 = key)) (k', entry) = true :=
          @List.find?_some (K × CacheEntry V) (fun q => decide (q.1 = key)) (k', entry)
            c.data hf
        have hlt' := length_filter_not_lt (fun p : K × CacheEntry V => decide (p.1 = key))
          c.data (k', entry) hmem hp
        have hlt : (c.data.filter fun p : K × CacheEntry V => !decide (p.1 = key)).length
            < c.data.length := hlt'
        by_cases hex : entry.isExpired now
        · simp only [MemoryCache.get, hf, if_pos hex, MemoryCache.size]
          omega
        · simp only [MemoryCache.get, hf, if_neg hex, MemoryCache.size,
            List.length_append, List.length_cons, List.length_nil]
          omega
    · by_cases hin : c.data.any (fun p => decide (p.1 = key))
      · have hle : (c.data.filter fun p : K × CacheEntry V => !decide (p.1 = key)).length
            ≤ c.data.length := List.length_filter_le _ _
        simp only [MemoryCache.delete, if_pos hin, MemoryCache.size]
        omega
      · simpa only [MemoryCache.delete, if_neg hin, MemoryCache.size] using hinv
    · simp only [MemoryCache.clear, MemoryCache.size, List.length_nil, Nat.cast_zero]
      omega
  · obtain ⟨l', hok, hlt⟩ := evictLoop_ok c.max_size hmax c.data
    by_cases hin : l'.any (fun p => decide (p.1 = key)) = true
    · have hs : c.set now key value ttl = Except.ok { c with data := l'.map (fun p => if p.1 = key then (key, ⟨value, now, now, 0, pyOrOpt ttl c.default_ttl⟩) else p) } := by
        simp [MemoryCache.set, hok, hin]
      refine ⟨_, hs, ?_⟩
      simp only [MemoryCache.size, List.length_map]
      omega
    · have hs : c.set now key value ttl = Except.ok { c with data := l' ++ [(key, ⟨value, now, now, 0, pyOrOpt ttl c.default_ttl⟩)] } := by
        simp [MemoryCache.set, hok, hin]
      refine ⟨_, hs, ?_⟩
      simp only [MemoryCache.size, List.length_append, List.length_cons,
        List.length_nil]
      push_cast
      omega
  · intro m hm
    simp only [MemoryCache.set, MemoryCache.empty, SampleProject.evictLoop, if_pos hm]

open Important SampleProject in
/-- Witness for C9 at a concrete cache over `Nat` keys/values with capacity 1. -/
theorem c9_memory_cache_invariant_witness :
    (1 : Int) ≤ (MemoryCache.empty 1 none : MemoryCache Nat Nat).max_size
      ∧ ((((MemoryCache.empty 1 none : MemoryCache Nat Nat).size : Int) ≤ 1)
          ∧ (((MemoryCache.empty 1 none : MemoryCache Nat Nat).size : Int) ≤ 1 →
              ((((MemoryCache.empty 1 none : MemoryCache Nat Nat).get 0 0).2.size : Int) ≤ 1
                ∧ (((MemoryCache.empty 1 none : MemoryCache Nat Nat).delete 0).2.size : Int) ≤ 1
                ∧ (((MemoryCache.empty 1 none : MemoryCache Nat Nat).clear.2.size : Int) ≤ 1)))
          ∧ (∃ c', (MemoryCache.empty 1 none : MemoryCache Nat Nat).set 0 0 0 none = .ok c'
                ∧ (c'.size : Int) ≤ 1)
          ∧ (∀ m : Int, m ≤ 0 →
              (MemoryCache.empty m none : MemoryCache Nat Nat).set 0 0 0 none = .error ())) :=
  ⟨by norm_num [MemoryCache.empty],
    c9_memory_cache_invariant (MemoryCache.empty 1 none) 0 0 0 none (by norm_num [MemoryCache.empty])⟩

namespace Important

/-! ### General list lemmas used by the parser/rewriter proofs -/

theorem splitOnP_part {α : Type} (p : α → Bool) :
    ∀ (l : List α), ∀ x ∈ List.splitOnP p l, ∀ a ∈ x, a ∈ l ∧ p a = false := by
  intro l
  induction l with
  | nil =>
    intro x hx a ha
    simp only [List.splitOnP_nil, List.mem_singleton] at hx
    subst hx
    simp at ha
  | cons hd tl ih =>
    intro x hx a ha
    rw [List.splitOnP_cons] at hx
    by_cases hp : p hd
    · rw [if_pos hp] at hx
      rcases List.mem_cons.mp hx with h1 | h1
      · subst h1; simp at ha
      · obtain ⟨h2, h3⟩ := ih x h1 a ha
        exact ⟨List.mem_cons_of_mem _ h2, h3⟩
    · rw [if_neg hp] at hx
      rcases hsp : List.splitOnP p tl with _ | ⟨y, ys⟩
      · exact absurd hsp (List.splitOnP_ne_nil p tl)
      · rw [hsp, List.modifyHead_cons] at hx
        rcases List.mem_cons.mp hx with h1 | h1
        · subst h1
          rcases List.mem_cons.mp ha with h2 | h2
          · subst h2
            exact ⟨List.mem_cons_self _ _, by simpa using hp⟩
          · obtain ⟨h3, h4⟩ := ih y (by rw [hsp]; exact List.mem_cons_self _ _) a h2
            exact ⟨List.mem_cons_of_mem _ h3, h4⟩
        · obtain ⟨h3, h4⟩ := ih x (by rw [hsp]; exact List.mem_cons_of_mem _ h1) a ha
          exact ⟨List.mem_cons_of_mem _ h3, h4⟩

theorem splitOn_part {α : Type} [DecidableEq α] (c : α) (l : List α) :
    ∀ x ∈ l.splitOn c, ∀ a ∈ x, a ∈ l ∧ a ≠ c := by
  intro x hx a ha
  have h := splitOnP_part (fun b => b == c) l x (by simpa [List.splitOn] using hx) a ha
  exact ⟨h.1, beq_eq_false_iff_ne.mp h.2⟩

theorem splitOn_ne_nil {α : Type} [DecidableEq α] (c : α) (l : List α) :
    l.splitOn c ≠ [] :=
  List.splitOnP_ne_nil _ l

theorem dropWhile_idem {α : Type} (p : α → Bool) :
    ∀ l : List α, List.dropWhile p (List.dropWhile p l) = List.dropWhile p l := by
  intro l
  induction l with
  | nil => rfl
  | cons hd tl ih =>
    rw [List.dropWhile_cons]
    by_cases hp : p hd
    · rw [if_pos hp]; exact ih
    · rw [if_neg hp, List.dropWhile_cons, if_neg hp]

theorem head?_dropWhile {α : Type} (p : α → Bool) :
    ∀ (l : List α) (a : α), (List.dropWhile p l).head? = some a → p a = false := by
  intro l
  induction l with
  | nil => intro a h; simp [List.dropWhile] at h
  | cons hd tl ih =>
    intro a h
    rw [List.dropWhile_cons] at h
    by_cases hp : p hd
    · rw [if_pos hp] at h; exact ih a h
    · rw [if_neg hp] at h
      simp only [List.head?_cons, Option.some_inj] at h
      subst h
      simpa using hp

theorem takeWhile_dropWhile_nil {α : Type} (p : α → Bool) :
    ∀ l : List α, List.takeWhile p (List.dropWhile p l) = [] := by
  intro l
  induction l with
  | nil => rfl
  | cons hd tl ih =>
    rw [List.dropWhile_cons]
    by_cases hp : p hd
    · rw [if_pos hp]; exact ih
    · rw [if_neg hp, List.takeWhile_cons, if_neg hp]

theorem dropWhile_eq_self_of {α : Type} (p : α → Bool) (l : List α)
    (h : ∀ a ∈ l, p a = false) : List.dropWhile p l = l := by
  cases l with
  | nil => rfl
  | cons hd tl =>
    rw [List.dropWhile_cons, if_neg]
    simp [h hd (List.mem_cons_self _ _)]

theorem mem_trimChars {l : List Char} {a : Char} (h : a ∈ trimChars l) : a ∈ l := by
  unfold trimChars at h
  rw [List.mem_reverse] at h
  have h1 : a ∈ (List.dropWhile (fun c => c = ' ') l).reverse :=
    List.Sublist.mem h (List.dropWhile_sublist _)
  rw [List.mem_reverse] at h1
  exact List.Sublist.mem h1 (List.dropWhile_sublist _)

theorem trimChars_eq_self {l : List Char} (h : ∀ a ∈ l, a ≠ ' ') : trimChars l = l := by
  unfold trimChars
  rw [dropWhile_eq_self_of _ l (fun a ha => by simp [h a ha]),
    dropWhile_eq_self_of _ l.reverse (fun a ha => by simp [h a (List.mem_reverse.mp ha)]),
    List.reverse_reverse]

theorem trimChars_idem (l : List Char) : trimChars (trimChars l) = trimChars l := by
  set q : Char → Bool := fun c => decide (c = ' ') with hq
  set A : List Char := List.dropWhile q l with hA
  set B : List Char := List.dropWhile q A.reverse with hB
  have htrim : trimChars l = B.reverse := rfl
  have hstep1 : List.dropWhile q B.reverse = B.reverse := by
    rcases hBr : B.reverse with _ | ⟨c, rest⟩
    · rfl
    · have hBne : B ≠ [] := by
        intro hcon
        rw [hcon] at hBr
        exact List.cons_ne_nil _ _ hBr.symm
      have hhead : B.reverse.head? = some c := by rw [hBr]; rfl
      have hgl : B.getLast? = some c := by
        rw [← List.head?_reverse]; exact hhead
      obtain ⟨pre, hpre⟩ := List.dropWhile_suffix (l := A.reverse) q
      have hglA : A.reverse.getLast? = some c := by
        rw [← hpre, List.getLast?_append, hgl]; rfl
      have hheadA : A.head? = some c := by
        rw [← List.getLast?_reverse]; exact hglA
      have hqc : q c = false := head?_dropWhile q l c (by rw [← hA]; exact hheadA)
      rw [List.dropWhile_cons, if_neg (by simp [hqc])]
  have hstep2 : List.dropWhile q B = B := by
    rw [hB]; exact dropWhile_idem q A.reverse
  show ((List.dropWhile q (trimChars l)).reverse.dropWhile q).reverse = trimChars l
  rw [htrim, hstep1, List.reverse_reverse, hstep2]

theorem intercalate_cons₂ {α : Type} (c : α) (x y : List α) (zs : List (List α)) :
    List.intercalate [c] (x :: y :: zs) = x ++ c :: List.intercalate [c] (y :: zs) := by
  simp [List.intercalate, List.intersperse_cons_cons]

theorem mem_joinSep {c : Char} {parts : List (List Char)} {a : Char} :
    a ∈ joinSep c parts → a = c ∨ ∃ x ∈ parts, a ∈ x := by
  induction parts with
  | nil => intro h; simp [joinSep, List.intercalate] at h
  | cons x xs ih =>
    intro h
    cases xs with
    | nil =>
      simp only [joinSep, List.intercalate, List.intersperse_singleton,
        List.flatten_cons, List.flatten_nil, List.append_nil] at h
      exact Or.inr ⟨x, List.mem_cons_self _ _, h⟩
    | cons y ys =>
      rw [joinSep, intercalate_cons₂] at h
      rcases List.mem_append.mp h with h1 | h1
      · exact Or.inr ⟨x, List.mem_cons_self _ _, h1⟩
      · rcases List.mem_cons.mp h1 with h2 | h2
        · exact Or.inl h2
        · rcases ih h2 with h3 | ⟨z, hz, hz2⟩
          · exact Or.inl h3
          · exact Or.inr ⟨z, List.mem_cons_of_mem _ hz, hz2⟩

theorem not_mem_joinSep {c a : Char} {parts : List (List Char)}
    (hne : a ≠ c) (h : ∀ x ∈ parts, a ∉ x) : a ∉ joinSep c parts := by
  intro hmem
  rcases mem_joinSep hmem with h1 | ⟨x, hx, hx2⟩
  · exact hne h1
  · exact h x hx hx2

theorem joinSep_splitOn (c : Char) (l : List Char) :
    joinSep c (l.splitOn c) = l :=
  List.intercalate_splitOn l c

theorem splitOn_joinSep (c : Char) (parts : List (List Char))
    (h : ∀ x ∈ parts, c ∉ x) (hne : parts ≠ []) :
    (joinSep c parts).splitOn c = parts :=
  List.splitOn_intercalate parts c h hne

end Important

namespace Important

/-! ### Lexicographic order and sortedness lemmas -/

theorem lexLeb_cons_cons (a b : Char) (as bs : List Char) :
    lexLeb (a :: as) (b :: bs)
      = if a < b then true else if a = b then lexLeb as bs else false := rfl

theorem lexLeb_total : ∀ a b : List Char, lexLeb a b = true ∨ lexLeb b a = true := by
  intro a
  induction a with
  | nil => intro b; left; rfl
  | cons x xs ih =>
    intro b
    cases b with
    | nil => right; rfl
    | cons y ys =>
      rcases lt_trichotomy x y with h | h | h
      · left; simp [lexLeb_cons_cons, h]
      · subst h
        rcases ih ys with h2 | h2
        · left; simp [lexLeb_cons_cons, h2]
        · right; simp [lexLeb_cons_cons, h2]
      · right; simp [lexLeb_cons_cons, h]

theorem lexLeb_trans :
    ∀ a b c : List Char, lexLeb a b = true → lexLeb b c = true → lexLeb a c = true := by
  intro a
  induction a with
  | nil => intro b c _ _; rfl
  | cons x xs ih =>
    intro b c h1 h2
    cases b with
    | nil => simp [lexLeb] at h1
    | cons y ys =>
      cases c with
      | nil => simp [lexLeb] at h2
      | cons z zs =>
        by_cases hxy : x < y
        · by_cases hyz : y < z
          · simp [lexLeb_cons_cons, lt_trans hxy hyz]
          · by_cases hyz2 : y = z
            · subst hyz2; simp [lexLeb_cons_cons, hxy]
            · simp [lexLeb_cons_cons, hyz, hyz2] at h2
        · by_cases hxy2 : x = y
          · subst hxy2
            by_cases hxz : x < z
            · simp [lexLeb_cons_cons, hxz]
            · by_cases hxz2 : x = z
              · subst hxz2
                rw [lexLeb_cons_cons, if_neg (lt_irrefl x), if_pos rfl] at h1 h2 ⊢
                exact ih ys zs h1 h2
              · simp [lexLeb_cons_cons, hxz, hxz2] at h2
          · simp [lexLeb_cons_cons, hxy, hxy2] at h1

theorem recLeb_total (cfg : Configuration) :
    ∀ a b : ImportRecord, recLeb cfg a b = true ∨ recLeb cfg b a = true := by
  intro a b
  unfold recLeb
  rcases lt_trichotomy (catIndex (recCategory cfg a)) (catIndex (recCategory cfg b))
    with h | h | h
  · left; simp [h]
  · rcases lexLeb_total (moduleKey a) (moduleKey b) with h2 | h2
    · left; simp [h, h2]
    · right; simp [h, h2]
  · right; simp [h]

theorem recLeb_trans (cfg : Configuration) :
    ∀ a b c : ImportRecord, recLeb cfg a b = true → recLeb cfg b c = true →
      recLeb cfg a c = true := by
  intro a b c h1 h2
  unfold recLeb at h1 h2 ⊢
  simp only [Bool.or_eq_true, Bool.and_eq_true, decide_eq_true_eq] at h1 h2 ⊢
  rcases h1 with h1 | ⟨h1e, h1l⟩ <;> rcases h2 with h2 | ⟨h2e, h2l⟩
  · left; omega
  · left; omega
  · left; omega
  · right; exact ⟨by omega, lexLeb_trans _ _ _ h1l h2l⟩

theorem sortedByB_of_sorted {α : Type} (le : α → α → Bool) :
    ∀ l : List α, List.Sorted (fun a b => le a b = true) l → sortedByB le l = true := by
  intro l
  induction l with
  | nil => intro _; rfl
  | cons a t ih =>
    intro h
    cases t with
    | nil => rfl
    | cons b t2 =>
      have hab : le a b = true := List.rel_of_sorted_cons h b (List.mem_cons_self _ _)
      show (le a b && sortedByB le (b :: t2)) = true
      simp [hab, ih h.of_cons]

/-! ### Character-case lemmas (§4.5) -/

theorem isPascal_not_snake {s : List Char} (h : isPascalCase s = true) :
    isSnakeCase s = false := by
  cases s with
  | nil => simp [isPascalCase] at h
  | cons c cs =>
    simp only [isPascalCase] at h
    simp only [isUpperChar, Bool.and_eq_true, decide_eq_true_eq] at h
    obtain ⟨h1, h2⟩ := h
    have hZa : ¬('a' ≤ c) := fun hh => absurd (le_trans hh h2) (by decide)
    have hus : c ≠ '_' := fun hh => absurd (hh ▸ h2) (by decide)
    have hd9 : ¬(c ≤ '9') := fun hh => absurd (le_trans h1 hh) (by decide)
    simp [isSnakeCase, isLowerChar, isDigitChar, hZa, hus, hd9]

end Important

open Important in
/-- C2: `classify` matches the project's first-party/local roots only at the
root (first) segment of the dotted path: a module whose name equals a nested
local directory segment but is not itself a declared root (nor a declared
standard-library or typing-exempt name) is classified third_party, never
first_party or local_path — `requests` stays third_party even when a local
directory `.../requests/` exists in the project tree. -/
theorem c2_classify_root_position_only (cfg : Configuration) (name : List Char)
    (rest : List (List Char))
    (h1 : name ∉ cfg.standardLibraryNames)
    (h2 : name ∉ cfg.typingExemptModules)
    (h3 : name ∉ cfg.firstPartyRoots)
    (h4 : ∀ d ∈ cfg.projectTree, d.head? ≠ some name)
    (h5 : ∃ d ∈ cfg.projectTree, name ∈ d.drop 1) :
    classify cfg (name :: rest) = ModuleCategory.third_party := by
  show (if name ∈ cfg.standardLibraryNames then ModuleCategory.standard_library
    else if name ∈ cfg.typingExemptModules then ModuleCategory.typing_exempt
    else if name ∈ cfg.firstPartyRoots then ModuleCategory.first_party
    else if name ∈ cfg.projectTree.filterMap List.head? then ModuleCategory.local_path
    else ModuleCategory.third_party) = ModuleCategory.third_party
  rw [if_neg h1, if_neg h2, if_neg h3, if_neg]
  intro hmem
  obtain ⟨d, hd, hdh⟩ := List.mem_filterMap.mp hmem
  exact h4 d hd hdh

open Important in
/-- Witness for C2: `requests` with a nested local directory
`src/requests/` in the project tree. -/
theorem c2_classify_root_position_only_witness :
    (∃ d ∈ [[['s', 'r', 'c'], ['r', 'e', 'q', 'u', 'e', 's', 't', 's']]],
        (['r', 'e', 'q', 'u', 'e', 's', 't', 's'] : List Char) ∈ d.drop 1)
      ∧ classify ⟨[], [], [], [[['s', 'r', 'c'], ['r', 'e', 'q', 'u', 'e', 's', 't', 's']]], [], 88⟩
          [['r', 'e', 'q', 'u', 'e', 's', 't', 's']] = ModuleCategory.third_party :=
  ⟨by decide,
    c2_classify_root_position_only
      ⟨[], [], [], [[['s', 'r', 'c'], ['r', 'e', 'q', 'u', 'e', 's', 't', 's']]], [], 88⟩
      ['r', 'e', 'q', 'u', 'e', 's', 't', 's'] [] (by decide) (by decide) (by decide)
      (by decide) (by decide)⟩

open Important in
/-- C1: a PascalCase imported name followed by `(` or `.` is never counted
as module-style evidence and therefore never suppresses the
import-modules-not-symbols diagnostic for its record, while a snake_case
imported name followed by `.` is always counted as module-style evidence
and always suppresses that diagnostic. -/
theorem c1_pascal_never_module_style (record : ImportRecord)
    (cat : ModuleCategory) (refs : List UsageRef)
    (hk : record.kind = ImportKind.fromImport)
    (hcat : cat ≠ ModuleCategory.typing_exempt)
    (hctx : record.enclosing_context ≠ EnclosingContext.type_checking_block) :
    (∀ n : List Char, isPascalCase n = true →
        moduleStyleEvidence ⟨n, NextToken.lparen⟩ = false
          ∧ moduleStyleEvidence ⟨n, NextToken.dot⟩ = false)
      ∧ ((∃ r ∈ refs, r.name ∈ record.imported_names) →
          (∀ r ∈ refs, r.name ∈ record.imported_names →
            isPascalCase r.name = true
              ∧ (r.next = NextToken.lparen ∨ r.next = NextToken.dot)) →
          importModulesNotSymbols cat record refs = true)
      ∧ (∀ r ∈ refs, r.name ∈ record.imported_names → isSnakeCase r.name = true →
          r.next = NextToken.dot →
          moduleStyleEvidence r = true
            ∧ importModulesNotSymbols cat record refs = false) := by
  have hA : decide (record.kind = ImportKind.fromImport) = true := by simp [hk]
  have hB : decide (cat = ModuleCategory.typing_exempt) = false := by simp [hcat]
  have hC : decide (record.enclosing_context = EnclosingContext.type_checking_block)
      = false := by simp [hctx]
  refine ⟨?_, ?_, ?_⟩
  · intro n hp
    constructor
    · simp [moduleStyleEvidence]
    · simp [moduleStyleEvidence, isPascal_not_snake hp]
  · intro hused hall
    unfold importModulesNotSymbols
    rw [hA, hB, hC]
    simp only [Bool.not_false, Bool.true_and, Bool.and_true]
    have hD : refs.any (fun r => decide (r.name ∈ record.imported_names)) = true := by
      rw [List.any_eq_true]
      obtain ⟨r, hr, hrm⟩ := hused
      exact ⟨r, hr, by simpa using hrm⟩
    have hE : refs.any
        (fun r => decide (r.name ∈ record.imported_names) && moduleStyleEvidence r)
          = false := by
      rw [List.any_eq_false]
      intro r hr
      by_cases hm : r.name ∈ record.imported_names
      · obtain ⟨hpas, hnext⟩ := hall r hr hm
        have : moduleStyleEvidence r = false := by
          rcases hnext with h | h
          · simp [moduleStyleEvidence, h]
          · simp [moduleStyleEvidence, h, isPascal_not_snake hpas]
        simp [this]
      · simp [hm]
    rw [hD, hE]
    rfl
  · intro r hr hm hsnake hdot
    have hev : moduleStyleEvidence r = true := by
      simp [moduleStyleEvidence, hdot, hsnake]
    refine ⟨hev, ?_⟩
    unfold importModulesNotSymbols
    have hE : refs.any
        (fun r => decide (r.name ∈ record.imported_names) && moduleStyleEvidence r)
          = true := by
      rw [List.any_eq_true]
      exact ⟨r, hr, by simp [hm, hev]⟩
    rw [hE]
    simp

open Important in
/-- Witness for C1 at a record importing the PascalCase symbol `B`, used as
`B.`, and (for the snake part) a record importing `h` used as `h.`. -/
theorem c1_pascal_never_module_style_witness :
    ((⟨ImportKind.fromImport, 0, [[['b']]], [['B']], EnclosingContext.top_level⟩
          : ImportRecord).kind = ImportKind.fromImport)
      ∧ ((∀ n : List Char, isPascalCase n = true →
            moduleStyleEvidence ⟨n, NextToken.lparen⟩ = false
              ∧ moduleStyleEvidence ⟨n, NextToken.dot⟩ = false)
          ∧ ((∃ r ∈ [(⟨['B'], NextToken.dot⟩ : UsageRef)],
                r.name ∈ (⟨ImportKind.fromImport, 0, [[['b']]], [['B']],
                  EnclosingContext.top_level⟩ : ImportRecord).imported_names) →
              (∀ r ∈ [(⟨['B'], NextToken.dot⟩ : UsageRef)],
                r.name ∈ (⟨ImportKind.fromImport, 0, [[['b']]], [['B']],
                  EnclosingContext.top_level⟩ : ImportRecord).imported_names →
                isPascalCase r.name = true
                  ∧ (r.next = NextToken.lparen ∨ r.next = NextToken.dot)) →
              importModulesNotSymbols ModuleCategory.first_party
                ⟨ImportKind.fromImport, 0, [[['b']]], [['B']],
                  EnclosingContext.top_level⟩
                [(⟨['B'], NextToken.dot⟩ : UsageRef)] = true)
          ∧ (∀ r ∈ [(⟨['B'], NextToken.dot⟩ : UsageRef)],
              r.name ∈ (⟨ImportKind.fromImport, 0, [[['b']]], [['B']],
                EnclosingContext.top_level⟩ : ImportRecord).imported_names →
              isSnakeCase r.name = true → r.next = NextToken.dot →
              moduleStyleEvidence r = true
                ∧ importModulesNotSymbols ModuleCategory.first_party
                    ⟨ImportKind.fromImport, 0, [[['b']]], [['B']],
                      EnclosingContext.top_level⟩
                    [(⟨['B'], NextToken.dot⟩ : UsageRef)] = false)) :=
  ⟨rfl,
    c1_pascal_never_module_style
      ⟨ImportKind.fromImport, 0, [[['b']]], [['B']], EnclosingContext.top_level⟩
      ModuleCategory.first_party [⟨['B'], NextToken.dot⟩]
      rfl (by decide) (by decide)⟩

open Important in
/-- C7: a symbol-style from-import inside a type-checking block never gets
the import-modules-not-symbols diagnostic, while an identical symbol import
at top level (same names, same usage) does; the exemption applies only to
records inside the type-checking block. -/
theorem c7_type_checking_symbol_exemption (record : ImportRecord)
    (cat : ModuleCategory) (refs : List UsageRef)
    (hk : record.kind = ImportKind.fromImport)
    (hcat : cat ≠ ModuleCategory.typing_exempt)
    (hused : ∃ r ∈ refs, r.name ∈ record.imported_names)
    (hnomod : ∀ r ∈ refs, r.name ∈ record.imported_names →
      moduleStyleEvidence r = false) :
    importModulesNotSymbols cat
        { record with enclosing_context := EnclosingContext.type_checking_block }
        refs = false
      ∧ importModulesNotSymbols cat
        { record with enclosing_context := EnclosingContext.top_level } refs = true := by
  constructor
  · unfold importModulesNotSymbols
    simp
  · unfold importModulesNotSymbols
    have hA : decide (({ record with enclosing_context := EnclosingContext.top_level }
        : ImportRecord).kind = ImportKind.fromImport) = true := by simp [hk]
    have hB : decide (cat = ModuleCategory.typing_exempt) = false := by simp [hcat]
    have hD : refs.any (fun r => decide (r.name ∈
        ({ record with enclosing_context := EnclosingContext.top_level }
          : ImportRecord).imported_names)) = true := by
      rw [List.any_eq_true]
      obtain ⟨r, hr, hrm⟩ := hused
      exact ⟨r, hr, by simpa using hrm⟩
    have hE : refs.any (fun r => decide (r.name ∈
        ({ record with enclosing_context := EnclosingContext.top_level }
          : ImportRecord).imported_names) && moduleStyleEvidence r) = false := by
      rw [List.any_eq_false]
      intro r hr
      by_cases hm : r.name ∈ record.imported_names
      · simp [hnomod r hr hm]
      · simp [hm]
    rw [hA, hB, hD, hE]
    rfl

open Important in
/-- Witness for C7 at a record importing the symbol `H`, used as `H(`. -/
theorem c7_type_checking_symbol_exemption_witness :
    (importModulesNotSymbols ModuleCategory.first_party
        { (⟨ImportKind.fromImport, 0, [[['m']]], [['H']], EnclosingContext.top_level⟩
            : ImportRecord) with
          enclosing_context := EnclosingContext.type_checking_block }
        [⟨['H'], NextToken.lparen⟩] = false)
      ∧ (importModulesNotSymbols ModuleCategory.first_party
          { (⟨ImportKind.fromImport, 0, [[['m']]], [['H']], EnclosingContext.top_level⟩
              : ImportRecord) with
            enclosing_context := EnclosingContext.top_level }
          [⟨['H'], NextToken.lparen⟩] = true) :=
  c7_type_checking_symbol_exemption
    ⟨ImportKind.fromImport, 0, [[['m']]], [['H']], EnclosingContext.top_level⟩
    ModuleCategory.first_party [⟨['H'], NextToken.lparen⟩]
    rfl (by decide) (by decide) (by decide)

namespace Important

/-! ### Scanner string-state lemmas (§4.1) -/

theorem finalStringState_append (q r : List Char) :
    ∀ st : Bool, finalStringState st (q ++ r)
      = finalStringState (finalStringState st q) r := by
  induction q with
  | nil => intro st; rfl
  | cons c cs ih =>
    intro st
    simp only [List.cons_append, finalStringState]
    exact ih _

theorem finalStringState_no_quote :
    ∀ s : List Char, '"' ∉ s → ∀ st : Bool, finalStringState st s = st := by
  intro s
  induction s with
  | nil => intro _ st; rfl
  | cons c cs ih =>
    intro h st
    have hc : c ≠ '"' := fun hh => h (hh ▸ List.mem_cons_self c cs)
    have hcs : '"' ∉ cs := fun hh => h (List.mem_cons_of_mem _ hh)
    simp only [finalStringState, if_neg hc]
    exact ih hcs st

theorem scanFrom_append (q r : List Char) :
    ∀ st : Bool, scanFrom st (q ++ r)
      = scanFrom st q ++ scanFrom (finalStringState st q) r := by
  induction q with
  | nil => intro st; rfl
  | cons c cs ih =>
    intro st
    by_cases hc : c = '"'
    · simp only [List.cons_append, scanFrom, finalStringState, if_pos hc,
        List.cons_append]
      exact congrArg _ (ih _)
    · simp only [List.cons_append, scanFrom, finalStringState, if_neg hc,
        List.cons_append]
      exact congrArg _ (ih _)

theorem scanFrom_no_quote_true :
    ∀ s : List Char, '"' ∉ s → scanFrom true s = List.replicate s.length true := by
  intro s
  induction s with
  | nil => intro _; rfl
  | cons c cs ih =>
    intro h
    have hc : c ≠ '"' := fun hh => h (hh ▸ List.mem_cons_self c cs)
    have hcs : '"' ∉ cs := fun hh => h (List.mem_cons_of_mem _ hh)
    simp only [scanFrom, if_neg hc, List.length_cons, List.replicate_succ, ih hcs]

theorem scanFrom_length (l : List Char) :
    ∀ st : Bool, (scanFrom st l).length = l.length := by
  induction l with
  | nil => intro st; rfl
  | cons c cs ih =>
    intro st
    by_cases hc : c = '"'
    · simp only [scanFrom, if_pos hc, List.length_cons, ih]
    · simp only [scanFrom, if_neg hc, List.length_cons, ih]

end Important

open Important in
/-- C8: an input containing an unterminated string literal leaves the
scanner inside the literal for the whole remainder of the file, the
analysis still returns normally with a structural-warning diagnostic, and
the diagnostics list is always returned (the warning appears exactly when
the literal is unterminated). -/
theorem c8_unterminated_string_policy (cfg : Configuration) (p s : List Char)
    (hopen : finalStringState false p = false) (hns : '"' ∉ s) :
    hasUnterminatedString (p ++ '"' :: s) = true
      ∧ (scanFrom false (p ++ '"' :: s)).drop (p.length + 1)
          = List.replicate s.length true
      ∧ (⟨RuleId.structural_warning⟩ : Diagnostic) ∈ analyze cfg (p ++ '"' :: s)
      ∧ (∀ t : List Char, hasUnterminatedString t = false →
          (⟨RuleId.structural_warning⟩ : Diagnostic) ∉ analyze cfg t) := by
  have hq : finalStringState false ('"' :: s) = finalStringState true s := by
    simp [finalStringState]
  have hunterm : hasUnterminatedString (p ++ '"' :: s) = true := by
    unfold hasUnterminatedString
    rw [finalStringState_append, hopen, hq]
    exact finalStringState_no_quote s hns true
  refine ⟨hunterm, ?_, ?_, ?_⟩
  · rw [scanFrom_append, hopen]
    have h1 : scanFrom false ('"' :: s) = true :: List.replicate s.length true := by
      simp [scanFrom, scanFrom_no_quote_true s hns]
    rw [h1]
    rw [show scanFrom false p ++ true :: List.replicate s.length true
        = (scanFrom false p ++ [true]) ++ List.replicate s.length true by simp]
    exact List.drop_left' (by simp [scanFrom_length])
  · simp [analyze, hunterm]
  · intro t hft hmem
    simp only [analyze, hft, if_neg, Bool.false_eq_true, not_false_eq_true,
      List.nil_append, if_false] at hmem
    unfold check checkRecords at hmem
    rcases List.mem_append.mp hmem with hm | hm
    · rcases List.mem_append.mp hm with hm2 | hm2
      · obtain ⟨x, _, hxe⟩ := List.mem_map.mp hm2
        simp at hxe
      · obtain ⟨x, _, hxe⟩ := List.mem_map.mp hm2
        simp at hxe
    · by_cases hcond : (sortedByB (recLeb cfg) (parsedRecords (t.splitOn '\n'))
          && (parsedRecords (t.splitOn '\n')).all namesSortedOK) = true
      · rw [if_pos hcond] at hm
        simp at hm
      · rw [if_neg hcond] at hm
        simp at hm

open Important in
/-- Witness for C8 at the input `x = "abc` (opening quote never closed). -/
theorem c8_unterminated_string_policy_witness :
    finalStringState false ['x', ' ', '=', ' '] = false
      ∧ ('"' ∉ (['a', 'b', 'c'] : List Char))
      ∧ (hasUnterminatedString (['x', ' ', '=', ' '] ++ '"' :: ['a', 'b', 'c']) = true
          ∧ (scanFrom false (['x', ' ', '=', ' '] ++ '"' :: ['a', 'b', 'c'])).drop
              (['x', ' ', '=', ' '].length + 1)
              = List.replicate ['a', 'b', 'c'].length true
          ∧ (⟨RuleId.structural_warning⟩ : Diagnostic)
              ∈ analyze ⟨[], [], [], [], [], 88⟩
                  (['x', ' ', '=', ' '] ++ '"' :: ['a', 'b', 'c'])
          ∧ (∀ t : List Char, hasUnterminatedString t = false →
              (⟨RuleId.structural_warning⟩ : Diagnostic)
                ∉ analyze ⟨[], [], [], [], [], 88⟩ t)) :=
  ⟨by decide, by decide,
    c8_unterminated_string_policy ⟨[], [], [], [], [], 88⟩ ['x', ' ', '=', ' ']
      ['a', 'b', 'c'] (by decide) (by decide)⟩

namespace Important

/-! ### Parser/renderer roundtrip -/

theorem takeWhile_eq_self_of {α : Type} (p : α → Bool) :
    ∀ l : List α, (∀ a ∈ l, p a = true) → l.takeWhile p = l := by
  intro l
  induction l with
  | nil => intro _; rfl
  | cons hd tl ih =>
    intro h
    rw [List.takeWhile_cons, if_pos (h hd (List.mem_cons_self _ _))]
    rw [ih fun a ha => h a (List.mem_cons_of_mem _ ha)]

theorem dropWhile_eq_nil_of {α : Type} (p : α → Bool) :
    ∀ l : List α, (∀ a ∈ l, p a = true) → l.dropWhile p = [] := by
  intro l
  induction l with
  | nil => intro _; rfl
  | cons hd tl ih =>
    intro h
    rw [List.dropWhile_cons, if_pos (h hd (List.mem_cons_self _ _))]
    exact ih fun a ha => h a (List.mem_cons_of_mem _ ha)

theorem dropWhile_eq_self_of_takeWhile_nil {α : Type} (p : α → Bool) (l : List α)
    (h : l.takeWhile p = []) : l.dropWhile p = l := by
  cases l with
  | nil => rfl
  | cons hd tl =>
    rw [List.takeWhile_cons] at h
    by_cases hp : p hd
    · rw [if_pos hp] at h; exact absurd h (List.cons_ne_nil _ _)
    · rw [List.dropWhile_cons, if_neg hp]

theorem parse_render_plain (rel : Nat) (paths : List (List (List Char)))
    (names : List (List Char)) (ctx : EnclosingContext)
    (hctx : ctx = EnclosingContext.top_level) (hrel : rel = 0) (hnames : names = [])
    (hne : paths ≠ []) (hpaths : ∀ p ∈ paths, PlainPathOK p) :
    parseImportLine (renderRecord ⟨ImportKind.plain, rel, paths, names, ctx⟩)
      = some ⟨ImportKind.plain, rel, paths, names, ctx⟩ := by
  subst hctx hrel hnames
  have hrender : renderRecord ⟨ImportKind.plain, 0, paths, [], EnclosingContext.top_level⟩
      = 'i' :: 'm' :: 'p' :: 'o' :: 'r' :: 't' :: ' '
          :: joinSep ',' (paths.map (joinSep '.')) := by
    simp [renderRecord, importKeyword]
  rw [hrender]
  have hsplit : (joinSep ',' (paths.map (joinSep '.'))).splitOn ','
      = paths.map (joinSep '.') := by
    apply splitOn_joinSep
    · intro x hx
      obtain ⟨p, hp, hpe⟩ := List.mem_map.mp hx
      subst hpe
      exact not_mem_joinSep (by decide) fun seg hseg => ((hpaths p hp).2.1 seg hseg).2.1
    · simpa using hne
  have hmapback : ∀ p ∈ paths, (trimChars (joinSep '.' p)).splitOn '.' = p := by
    intro p hp
    obtain ⟨hne2, hsegs, htrim⟩ := hpaths p hp
    rw [htrim]
    exact splitOn_joinSep '.' p (fun seg hseg => (hsegs seg hseg).1) hne2
  simp only [parseImportLine, hsplit, List.map_map, Option.some_inj]
  refine congrArg (fun ps => (⟨ImportKind.plain, 0, ps, [], EnclosingContext.top_level⟩
    : ImportRecord)) ?_
  rw [show ((fun s => (trimChars s).splitOn '.') ∘ joinSep '.') = fun p =>
      (trimChars (joinSep '.' p)).splitOn '.' from rfl]
  calc paths.map (fun p => (trimChars (joinSep '.' p)).splitOn '.')
      = paths.map id := List.map_congr_left fun p hp => hmapback p hp
    _ = paths := List.map_id paths

end Important

namespace Important

theorem parse_render_from (rel : Nat) (p : List (List Char))
    (names : List (List Char)) (ctx : EnclosingContext)
    (hctx : ctx = EnclosingContext.top_level)
    (hFP : FromPathOK p) (hFN : FromNamesOK names) :
    parseImportLine (renderRecord ⟨ImportKind.fromImport, rel, [p], names, ctx⟩)
      = some ⟨ImportKind.fromImport, rel, [p], names, ctx⟩ := by
  subst hctx
  obtain ⟨hpne, hsegs, htake⟩ := hFP
  obtain ⟨hnne, hnel⟩ := hFN
  set dp : List Char := List.replicate rel '.' ++ joinSep '.' p with hdp
  set nsl : List Char := joinSep ',' names with hnsl
  have hrender : renderRecord ⟨ImportKind.fromImport, rel, [p], names,
      EnclosingContext.top_level⟩
      = 'f' :: 'r' :: 'o' :: 'm' :: ' '
          :: (dp ++ ' ' :: (importKeyword ++ ' ' :: nsl)) := by
    simp [renderRecord, importKeyword, hdp, hnsl, List.append_assoc]
  have hdpns : ∀ x ∈ dp, ¬(x == ' ') = true := by
    intro x hx
    rw [hdp] at hx
    simp only [beq_iff_eq]
    rcases List.mem_append.mp hx with h | h
    · have hxe := List.eq_of_mem_replicate h
      subst hxe; decide
    · rcases mem_joinSep h with h2 | ⟨seg, hseg, hsx⟩
      · subst h2; decide
      · exact fun hsp => ((hsegs seg hseg).2.1) (hsp ▸ hsx)
  have hikns : ∀ x ∈ importKeyword, ¬(x == ' ') = true := by decide
  have hsplitsp : (dp ++ ' ' :: (importKeyword ++ ' ' :: nsl)).splitOn ' '
      = dp :: importKeyword :: nsl.splitOn ' ' := by
    show (dp ++ ' ' :: (importKeyword ++ ' ' :: nsl)).splitOnP (· == ' ')
      = dp :: importKeyword :: nsl.splitOnP (· == ' ')
    rw [List.splitOnP_first _ dp hdpns ' ' (by decide) _,
        List.splitOnP_first _ importKeyword hikns ' ' (by decide) _]
  have hrepl : ∀ a ∈ List.replicate rel '.', (fun c => decide (c = '.')) a = true := by
    intro a ha
    have hxe := List.eq_of_mem_replicate ha
    subst hxe; decide
  have htw : dp.takeWhile (fun c => c = '.') = List.replicate rel '.' := by
    rw [hdp, List.takeWhile_append, takeWhile_eq_self_of _ _ hrepl, if_pos rfl, htake,
      List.append_nil]
  have hdw : dp.dropWhile (fun c => c = '.') = joinSep '.' p := by
    rw [hdp, List.dropWhile_append, dropWhile_eq_nil_of _ _ hrepl,
      if_pos List.isEmpty_nil]
    exact dropWhile_eq_self_of_takeWhile_nil _ _ htake
  have hpaths2 : (dp.dropWhile (fun c => c = '.')).splitOn '.' = p := by
    rw [hdw]
    exact splitOn_joinSep '.' p (fun seg hseg => (hsegs seg hseg).1) hpne
  have hrel2 : (dp.takeWhile (fun c => c = '.')).length = rel := by
    rw [htw, List.length_replicate]
  have hnames2 : ((joinSep ' ' (nsl.splitOn ' ')).splitOn ',').map trimChars = names := by
    rw [joinSep_splitOn ' ' nsl, hnsl,
      splitOn_joinSep ',' names (fun n hn => (hnel n hn).1) hnne]
    calc names.map trimChars = names.map id :=
        List.map_congr_left fun n hn => (hnel n hn).2.1
      _ = names := List.map_id names
  rw [hrender]
  simp only [parseImportLine, hsplitsp, Option.some_inj]
  rw [hrel2, hpaths2, hnames2]
  simp

/-- Roundtrip: rendering a well-shaped record parses back to it. -/
theorem parse_render (r : ImportRecord) (hok : RecordOK r) :
    parseImportLine (renderRecord r) = some r := by
  obtain ⟨kind, rel, paths, names, ctx⟩ := r
  obtain ⟨hctx, hcase⟩ := hok
  simp only at hctx
  rcases hcase with ⟨hk, hrel, hnames, hne, hpaths⟩ | ⟨hk, p, hpaths, hFP, hFN⟩
  · simp only at hk hrel hnames
    subst hk
    exact parse_render_plain rel paths names ctx hctx hrel hnames hne
      (fun q hq => hpaths q hq)
  · simp only at hk hpaths
    subst hk hpaths
    exact parse_render_from rel p names ctx hctx hFP hFN

end Important

namespace Important

/-- Records produced by the parser from a newline-free line are well-shaped. -/
theorem parse_image_ok (l : List Char) (r : ImportRecord)
    (hnl : '\n' ∉ l) (hp : parseImportLine l = some r) : RecordOK r := by
  unfold parseImportLine at hp
  split at hp
  · rename_i rest
    have hr := (Option.some_inj.mp hp).symm
    subst hr
    have hnlr : '\n' ∉ rest := fun hh => hnl (by simp [hh])
    refine ⟨rfl, Or.inl ⟨rfl, rfl, rfl, ?_, ?_⟩⟩
    · simpa using splitOn_ne_nil ',' rest
    · intro p hpmem
      obtain ⟨s, hs, hse⟩ := List.mem_map.mp hpmem
      subst hse
      refine ⟨splitOn_ne_nil '.' (trimChars s), ?_, ?_⟩
      · intro seg hseg
        have hsegp := splitOn_part '.' (trimChars s) seg hseg
        refine ⟨fun hdot => (hsegp '.' hdot).2 rfl, ?_, ?_⟩
        · intro hcomma
          have h1 : ',' ∈ trimChars s := (hsegp ',' hcomma).1
          have h2 : ',' ∈ s := mem_trimChars h1
          exact (splitOn_part ',' rest s hs ',' h2).2 rfl
        · intro hnlmem
          have h1 : '\n' ∈ trimChars s := (hsegp '\n' hnlmem).1
          have h2 : '\n' ∈ s := mem_trimChars h1
          exact hnlr (splitOn_part ',' rest s hs '\n' h2).1
      · rw [joinSep_splitOn '.' (trimChars s)]
        exact trimChars_idem s
  · rename_i rest
    have hnlr : '\n' ∉ rest := fun hh => hnl (by simp [hh])
    split at hp
    · rename_i dp iw nsParts heq2
      split at hp
      · rename_i hik
        have hr := (Option.some_inj.mp hp).symm
        subst hr
        have hdpmem : dp ∈ rest.splitOn ' ' := by rw [heq2]; exact List.mem_cons_self _ _
        refine ⟨rfl, Or.inr ⟨rfl, (dp.dropWhile fun c => c = '.').splitOn '.',
          rfl, ⟨?_, ?_, ?_⟩, ?_, ?_⟩⟩
        · exact splitOn_ne_nil '.' _
        · intro seg hseg
          have hsegp := splitOn_part '.' (dp.dropWhile fun c => c = '.') seg hseg
          refine ⟨fun hdot => (hsegp '.' hdot).2 rfl, ?_, ?_⟩
          · intro hsp
            have h1 : ' ' ∈ dp :=
              List.Sublist.mem (hsegp ' ' hsp).1 (List.dropWhile_sublist _)
            exact (splitOn_part ' ' rest dp hdpmem ' ' h1).2 rfl
          · intro hnlm
            have h1 : '\n' ∈ dp :=
              List.Sublist.mem (hsegp '\n' hnlm).1 (List.dropWhile_sublist _)
            exact hnlr (splitOn_part ' ' rest dp hdpmem '\n' h1).1
        · rw [joinSep_splitOn '.' (dp.dropWhile fun c => c = '.')]
          exact takeWhile_dropWhile_nil _ dp
        · simpa using splitOn_ne_nil ',' (joinSep ' ' nsParts)
        · intro n hn
          obtain ⟨part, hpart, hpe⟩ := List.mem_map.mp hn
          subst hpe
          refine ⟨?_, trimChars_idem part, ?_⟩
          · intro hcm
            have h1 : ',' ∈ part := mem_trimChars hcm
            exact (splitOn_part ',' (joinSep ' ' nsParts) part hpart ',' h1).2 rfl
          · intro hnlm
            have h1 : '\n' ∈ part := mem_trimChars hnlm
            have h2 : '\n' ∈ joinSep ' ' nsParts :=
              (splitOn_part ',' (joinSep ' ' nsParts) part hpart '\n' h1).1
            rcases mem_joinSep h2 with h3 | ⟨x, hx, hx2⟩
            · exact absurd h3 (by decide)
            · have hxm : x ∈ rest.splitOn ' ' := by
                rw [heq2]
                exact List.mem_cons_of_mem _ (List.mem_cons_of_mem _ hx)
              exact hnlr (splitOn_part ' ' rest x hxm '\n' hx2).1
      · exact absurd hp (by simp)
    · exact absurd hp (by simp)
  · exact absurd hp (by simp)

end Important

namespace Important

/-! ### Normalization-stage lemmas -/

theorem eta_paths (r : ImportRecord) (p : List (List Char)) (h : r.paths = [p]) :
    ({ r with paths := [p] } : ImportRecord) = r := by
  cases r
  simp_all

theorem eta_names (r : ImportRecord) (h : sortNames r.imported_names = r.imported_names) :
    ({ r with imported_names := sortNames r.imported_names } : ImportRecord) = r := by
  cases r
  simp_all

theorem flatten_map_singleton {α : Type} :
    ∀ l : List α, (l.map fun a => [a]).flatten = l := by
  intro l
  induction l with
  | nil => rfl
  | cons a t ih => simp [ih]

theorem sortNames_perm (ns : List (List Char)) : List.Perm (sortNames ns) ns :=
  List.perm_insertionSort _ ns

theorem sortNames_sorted (ns : List (List Char)) :
    List.Sorted (fun a b => lexLeb a b = true) (sortNames ns) := by
  haveI : IsTotal (List Char) (fun a b => lexLeb a b = true) := ⟨lexLeb_total⟩
  haveI : IsTrans (List Char) (fun a b => lexLeb a b = true) := ⟨lexLeb_trans⟩
  exact List.sorted_insertionSort _ ns

theorem sortNames_of_sorted {ns : List (List Char)}
    (h : List.Sorted (fun a b => lexLeb a b = true) ns) : sortNames ns = ns :=
  List.Sorted.insertionSort_eq h

theorem splitMulti_ok {r : ImportRecord} (hok : RecordOK r) :
    ∀ r2 ∈ splitMulti r, RecordOK r2 ∧ (∃ p, r2.paths = [p])
      ∧ r2.is_relative = r.is_relative ∧ r2.imported_names = r.imported_names
      ∧ r2.kind = r.kind ∧ r2.enclosing_context = r.enclosing_context := by
  obtain ⟨kind, rel, paths, names, ctx⟩ := r
  obtain ⟨hctx, hcase⟩ := hok
  simp only at hctx
  subst hctx
  intro r2 hr2
  rcases hcase with ⟨hk, hrel, hnames, hne, hpaths⟩ | ⟨hk, p, hpaths, hFP, hFN⟩
  · simp only at hk hrel hnames hpaths
    subst hk hrel hnames
    simp only [splitMulti, List.mem_map] at hr2
    obtain ⟨p, hp, hpe⟩ := hr2
    subst hpe
    refine ⟨⟨rfl, Or.inl ⟨rfl, rfl, rfl, List.cons_ne_nil _ _, ?_⟩⟩,
      ⟨p, rfl⟩, rfl, rfl, rfl, rfl⟩
    intro q hq
    rw [List.mem_singleton] at hq
    subst hq
    exact hpaths q hp
  · simp only at hk hpaths
    subst hk hpaths
    simp only [splitMulti, List.mem_singleton] at hr2
    subst hr2
    refine ⟨⟨rfl, Or.inr ⟨rfl, p, rfl, hFP, hFN⟩⟩, ⟨p, rfl⟩, rfl, rfl, rfl, rfl⟩

theorem splitMulti_normal {r : ImportRecord} (hn : NormalRecord r) :
    splitMulti r = [r] := by
  obtain ⟨⟨hctx, hcase⟩, hrel, ⟨p, hp⟩, hsorted⟩ := hn
  obtain ⟨kind, rel, paths, names, ctx⟩ := r
  simp only at hp
  subst hp
  rcases hcase with ⟨hk, _⟩ | ⟨hk, _⟩
  · simp only at hk
    subst hk
    rfl
  · simp only at hk
    subst hk
    rfl

theorem splitMulti_ne_nil {r : ImportRecord} (hok : RecordOK r) :
    splitMulti r ≠ [] := by
  obtain ⟨kind, rel, paths, names, ctx⟩ := r
  obtain ⟨hctx, hcase⟩ := hok
  rcases hcase with ⟨hk, _, _, hne, _⟩ | ⟨hk, p, hp, _⟩
  · simp only at hk hne
    subst hk
    simpa [splitMulti] using hne
  · simp only at hk hp
    subst hk hp
    simp [splitMulti]

end Important

namespace Important

theorem joinSep_singleton (c : Char) (x : List Char) : joinSep c [x] = x := by
  simp [joinSep, List.intercalate]

theorem takeWhile_dot_joinSep_cons (c0 : Char) (x' : List Char)
    (rest : List (List Char)) (hc0 : c0 ≠ '.') :
    (joinSep '.' ((c0 :: x') :: rest)).takeWhile (fun c => c = '.') = [] := by
  cases rest with
  | nil =>
    rw [joinSep_singleton, List.takeWhile_cons, if_neg (by simpa using hc0)]
  | cons y ys =>
    rw [joinSep, intercalate_cons₂, List.cons_append, List.takeWhile_cons,
      if_neg (by simpa using hc0)]

theorem fromPathOK_resolve (cfg : Configuration) (hcfg : ValidConfig cfg)
    (dots : Nat) (p : List (List Char)) (hFP : FromPathOK p) :
    FromPathOK (resolveRelative cfg.packagePath dots p) := by
  obtain ⟨hne, hsegs, htake⟩ := hFP
  unfold resolveRelative
  have hpresegs : ∀ seg ∈ cfg.packagePath.take (cfg.packagePath.length + 1 - dots),
      seg ≠ [] ∧ '.' ∉ seg ∧ ' ' ∉ seg ∧ ',' ∉ seg ∧ '\n' ∉ seg := by
    intro seg hseg
    exact hcfg seg (List.take_subset _ _ hseg)
  refine ⟨?_, ?_, ?_⟩
  · intro hcon
    rcases List.append_eq_nil.mp hcon with ⟨_, h2⟩
    exact hne h2
  · intro seg hseg
    rcases List.mem_append.mp hseg with h | h
    · obtain ⟨_, hd, hs, _, hn⟩ := hpresegs seg h
      exact ⟨hd, hs, hn⟩
    · exact hsegs seg h
  · rcases hq : cfg.packagePath.take (cfg.packagePath.length + 1 - dots)
      with _ | ⟨s, t⟩
    · simpa using htake
    · have hsmem : s ∈ cfg.packagePath.take (cfg.packagePath.length + 1 - dots) := by
        rw [hq]; exact List.mem_cons_self _ _
      obtain ⟨hsne, hsd, _, _, _⟩ := hpresegs s hsmem
      obtain ⟨c0, s', hs⟩ := List.exists_cons_of_ne_nil hsne
      subst hs
      rw [List.cons_append]
      exact takeWhile_dot_joinSep_cons c0 s' (t ++ p)
        (fun hh => hsd (hh ▸ List.mem_cons_self _ _))

theorem fixRelative_normal (cfg : Configuration) {r : ImportRecord}
    (h : r.is_relative = 0) : fixRelative cfg r = r := by
  simp [fixRelative, h]

theorem fixRelative_ok (cfg : Configuration) (hcfg : ValidConfig cfg)
    {r : ImportRecord} (hok : RecordOK r) (hsp : ∃ p, r.paths = [p]) :
    RecordOK (fixRelative cfg r) ∧ (fixRelative cfg r).is_relative = 0
      ∧ (∃ p, (fixRelative cfg r).paths = [p])
      ∧ (fixRelative cfg r).imported_names = r.imported_names
      ∧ (fixRelative cfg r).kind = r.kind
      ∧ (fixRelative cfg r).enclosing_context = r.enclosing_context := by
  by_cases h0 : r.is_relative = 0
  · rw [fixRelative_normal cfg h0]
    exact ⟨hok, h0, hsp, rfl, rfl, rfl⟩
  · have hfr : fixRelative cfg r = { r with is_relative := 0, paths := r.paths.map (resolveRelative cfg.packagePath r.is_relative) } := by
      simp [fixRelative, h0]
    obtain ⟨hctx, hcase⟩ := hok
    rcases hcase with ⟨_, hrel, _⟩ | ⟨hk, p, hpaths, hFP, hFN⟩
    · exact absurd hrel h0
    · rw [hfr]
      refine ⟨⟨hctx, Or.inr ⟨hk, resolveRelative cfg.packagePath r.is_relative p,
          ?_, fromPathOK_resolve cfg hcfg _ p hFP, hFN⟩⟩, rfl,
        ⟨resolveRelative cfg.packagePath r.is_relative p, ?_⟩, rfl, rfl, rfl⟩
      · show r.paths.map (resolveRelative cfg.packagePath r.is_relative) = _
        rw [hpaths, List.map_cons, List.map_nil]
      · show r.paths.map (resolveRelative cfg.packagePath r.is_relative) = _
        rw [hpaths, List.map_cons, List.map_nil]

theorem fixNames_ok {r : ImportRecord} (hok : RecordOK r) :
    RecordOK (fixNames r)
      ∧ sortNames (fixNames r).imported_names = (fixNames r).imported_names
      ∧ (fixNames r).paths = r.paths ∧ (fixNames r).is_relative = r.is_relative
      ∧ (fixNames r).kind = r.kind
      ∧ (fixNames r).enclosing_context = r.enclosing_context := by
  obtain ⟨hctx, hcase⟩ := hok
  have hidem : sortNames (sortNames r.imported_names) = sortNames r.imported_names :=
    sortNames_of_sorted (sortNames_sorted _)
  rcases hcase with ⟨hk, hrel, hnames, hne, hpaths⟩ | ⟨hk, p, hpaths, hFP, hFN⟩
  · have hsn : sortNames r.imported_names = [] := by rw [hnames]; rfl
    refine ⟨⟨hctx, Or.inl ⟨hk, hrel, ?_, hne, hpaths⟩⟩, ?_, rfl, rfl, rfl, rfl⟩
    · show sortNames r.imported_names = []
      exact hsn
    · show sortNames (sortNames r.imported_names) = sortNames r.imported_names
      exact hidem
  · obtain ⟨hnne, hnel⟩ := hFN
    have hperm := sortNames_perm r.imported_names
    refine ⟨⟨hctx, Or.inr ⟨hk, p, hpaths, hFP, ?_, ?_⟩⟩, ?_, rfl, rfl, rfl, rfl⟩
    · intro hcon
      have hcon2 : sortNames r.imported_names = [] := hcon
      have hlen := hperm.length_eq
      rw [hcon2] at hlen
      exact hnne (List.length_eq_zero.mp hlen.symm)
    · intro n hn
      exact hnel n (hperm.mem_iff.mp hn)
    · show sortNames (sortNames r.imported_names) = sortNames r.imported_names
      exact hidem

theorem normalize_sorted (cfg : Configuration) (records : List ImportRecord) :
    List.Sorted (fun a b => recLeb cfg a b = true) (normalizeRecords cfg records) := by
  haveI : IsTotal ImportRecord (fun a b => recLeb cfg a b = true) := ⟨recLeb_total cfg⟩
  haveI : IsTrans ImportRecord (fun a b => recLeb cfg a b = true) := ⟨recLeb_trans cfg⟩
  exact List.sorted_insertionSort _ _

theorem normalized_mem (cfg : Configuration) (hcfg : ValidConfig cfg)
    (records : List ImportRecord) (hrecs : ∀ r ∈ records, RecordOK r) :
    ∀ r ∈ normalizeRecords cfg records, NormalRecord r := by
  intro r hr
  unfold normalizeRecords at hr
  rw [List.mem_insertionSort] at hr
  obtain ⟨r1, hr1, hre⟩ := List.mem_map.mp hr
  obtain ⟨lr, hlr, hr1m⟩ := List.mem_flatten.mp hr1
  obtain ⟨r0, hr0, hlre⟩ := List.mem_map.mp hlr
  subst hlre
  subst hre
  have h0 := hrecs r0 hr0
  obtain ⟨hok1, hsp1, _, _, _, _⟩ := splitMulti_ok h0 r1 hr1m
  obtain ⟨hok2, hrel2, hsp2, _, _, _⟩ := fixRelative_ok cfg hcfg hok1 hsp1
  obtain ⟨hok3, hsorted3, hpaths3, hrel3, _, _⟩ := fixNames_ok hok2
  refine ⟨hok3, ?_, ?_, hsorted3⟩
  · rw [hrel3]; exact hrel2
  · rw [hpaths3]; exact hsp2

theorem normalize_fixed (cfg : Configuration) (records : List ImportRecord)
    (hn : ∀ r ∈ records, NormalRecord r)
    (hs : List.Sorted (fun a b => recLeb cfg a b = true) records) :
    normalizeRecords cfg records = records := by
  unfold normalizeRecords
  have h1 : records.map splitMulti = records.map (fun r => [r]) :=
    List.map_congr_left fun r hr => splitMulti_normal (hn r hr)
  rw [h1, flatten_map_singleton]
  have h2 : records.map (fun r => fixNames (fixRelative cfg r)) = records.map id := by
    apply List.map_congr_left
    intro r hr
    obtain ⟨hok, hrel, _, hsort⟩ := hn r hr
    show fixNames (fixRelative cfg r) = id r
    rw [fixRelative_normal cfg hrel]
    exact eta_names r hsort
  rw [h2, List.map_id]
  exact List.Sorted.insertionSort_eq hs

end Important

namespace Important

theorem render_no_newline {r : ImportRecord} (hok : RecordOK r) :
    '\n' ∉ renderRecord r := by
  obtain ⟨kind, rel, paths, names, ctx⟩ := r
  obtain ⟨hctx, hcase⟩ := hok
  rcases hcase with ⟨hk, hrel, hnames, hne, hpaths⟩ | ⟨hk, p, hpaths, hFP, hFN⟩
  · simp only at hk hrel hnames hpaths
    subst hk
    intro hmem
    simp only [renderRecord] at hmem
    rcases List.mem_append.mp hmem with h | h
    · exact absurd h (by decide)
    · rcases List.mem_cons.mp h with h2 | h2
      · exact absurd h2 (by decide)
      · rcases mem_joinSep h2 with h3 | ⟨x, hx, hx2⟩
        · exact absurd h3 (by decide)
        · obtain ⟨q, hq, hqe⟩ := List.mem_map.mp hx
          subst hqe
          rcases mem_joinSep hx2 with h4 | ⟨seg, hseg, hseg2⟩
          · exact absurd h4 (by decide)
          · exact ((hpaths q hq).2.1 seg hseg).2.2 hseg2
  · simp only at hk hpaths
    subst hk hpaths
    obtain ⟨hpne, hsegs, _⟩ := hFP
    obtain ⟨hnne, hnel⟩ := hFN
    intro hmem
    simp only [renderRecord, List.headD_cons, List.mem_append, List.mem_cons] at hmem
    rcases hmem with ((((h | h) | h) | h) | h)
    · exact absurd h (by decide)
    · have hd := List.eq_of_mem_replicate h
      exact absurd hd (by decide)
    · rcases mem_joinSep h with h2 | ⟨seg, hseg, hseg2⟩
      · exact absurd h2 (by decide)
      · exact (hsegs seg hseg).2.2 hseg2
    · rcases h with h | h
      · exact absurd h (by decide)
      · exact absurd h (by decide)
    · rcases h with h | h
      · exact absurd h (by decide)
      · rcases mem_joinSep h with h2 | ⟨n, hn, hn2⟩
        · exact absurd h2 (by decide)
        · exact (hnel n hn).2.2 hn2

theorem filterMap_eq_self_of {α : Type} (f : α → Option α) :
    ∀ l : List α, (∀ a ∈ l, f a = some a) → l.filterMap f = l := by
  intro l
  induction l with
  | nil => intro _; rfl
  | cons a t ih =>
    intro h
    rw [List.filterMap_cons, h a (List.mem_cons_self _ _),
      ih fun b hb => h b (List.mem_cons_of_mem _ hb)]

theorem parsedRecords_fixLines (cfg : Configuration) (hcfg : ValidConfig cfg)
    (lines : List (List Char)) (hl : ∀ l ∈ lines, '\n' ∉ l) :
    parsedRecords (fixLines cfg lines) = normalizeRecords cfg (parsedRecords lines)
      ∧ (fixLines cfg lines).filter (fun l => (parseImportLine l).isNone)
          = lines.filter (fun l => (parseImportLine l).isNone)
      ∧ (∀ l2 ∈ fixLines cfg lines, '\n' ∉ l2) := by
  have hrecsOK : ∀ r ∈ parsedRecords lines, RecordOK r := by
    intro r hr
    obtain ⟨l, hl2, hpe⟩ := List.mem_filterMap.mp hr
    exact parse_image_ok l r (hl l hl2) hpe
  have hnormOK := normalized_mem cfg hcfg _ hrecsOK
  have hparse_each : ∀ r ∈ normalizeRecords cfg (parsedRecords lines),
      parseImportLine (renderRecord r) = some r := fun r hr =>
    parse_render r (hnormOK r hr).1
  refine ⟨?_, ?_, ?_⟩
  · show ((normalizeRecords cfg (parsedRecords lines)).map renderRecord
        ++ lines.filter _).filterMap parseImportLine = _
    rw [List.filterMap_append, List.filterMap_map]
    rw [filterMap_eq_self_of (parseImportLine ∘ renderRecord) _
      (fun r hr => hparse_each r hr)]
    rw [List.filterMap_eq_nil_iff.mpr]
    · rw [List.append_nil]
    · intro l hl2
      exact Option.isNone_iff_eq_none.mp (List.mem_filter.mp hl2).2
  · show ((normalizeRecords cfg (parsedRecords lines)).map renderRecord
        ++ lines.filter _).filter _ = _
    rw [List.filter_append]
    rw [List.filter_eq_nil_iff.mpr, List.nil_append, List.filter_eq_self.mpr]
    · intro l hl2
      exact (List.mem_filter.mp hl2).2
    · intro l hl2
      obtain ⟨r, hr, hre⟩ := List.mem_map.mp hl2
      subst hre
      simp [hparse_each r hr]
  · intro l2 hl2
    rcases List.mem_append.mp hl2 with h | h
    · obtain ⟨r, hr, hre⟩ := List.mem_map.mp h
      subst hre
      exact render_no_newline (hnormOK r hr).1
    · exact hl l2 (List.mem_filter.mp h).1

theorem fixLines_idem (cfg : Configuration) (hcfg : ValidConfig cfg)
    (lines : List (List Char)) (hl : ∀ l ∈ lines, '\n' ∉ l) :
    fixLines cfg (fixLines cfg lines) = fixLines cfg lines := by
  have hrecsOK : ∀ r ∈ parsedRecords lines, RecordOK r := by
    intro r hr
    obtain ⟨l, hl2, hpe⟩ := List.mem_filterMap.mp hr
    exact parse_image_ok l r (hl l hl2) hpe
  obtain ⟨h1, h2, _⟩ := parsedRecords_fixLines cfg hcfg lines hl
  show (normalizeRecords cfg (parsedRecords (fixLines cfg lines))).map renderRecord
      ++ (fixLines cfg lines).filter _ = fixLines cfg lines
  rw [h1, h2, normalize_fixed cfg _ (normalized_mem cfg hcfg _ hrecsOK)
    (normalize_sorted cfg _)]
  rfl

theorem checkRecords_normalized (cfg : Configuration) (records : List ImportRecord)
    (hn : ∀ r ∈ records, NormalRecord r)
    (hs : List.Sorted (fun a b => recLeb cfg a b = true) records) :
    checkRecords cfg records = [] := by
  unfold checkRecords
  have hm : records.filter noMultipleImportsViolation = [] := by
    rw [List.filter_eq_nil_iff]
    intro r hr
    obtain ⟨_, _, ⟨p, hp⟩, _⟩ := hn r hr
    simp [noMultipleImportsViolation, hp]
  have hr2 : records.filter noRelativeImportsViolation = [] := by
    rw [List.filter_eq_nil_iff]
    intro r hr
    obtain ⟨_, hrel, _, _⟩ := hn r hr
    simp [noRelativeImportsViolation, hrel]
  rw [hm, hr2]
  have hsort : sortedByB (recLeb cfg) records = true := sortedByB_of_sorted _ _ hs
  have hnames : records.all namesSortedOK = true := by
    rw [List.all_eq_true]
    intro r hr
    obtain ⟨_, _, _, hsn⟩ := hn r hr
    have hsorted2 : List.Sorted (fun a b => lexLeb a b = true) r.imported_names := by
      rw [← hsn]
      exact sortNames_sorted _
    exact sortedByB_of_sorted _ _ hsorted2
  rw [if_pos (by rw [hsort, hnames]; rfl)]
  rfl

end Important

namespace Important

theorem fixLines_ne_nil (cfg : Configuration) (lines : List (List Char))
    (hlne : lines ≠ []) (hl : ∀ l ∈ lines, '\n' ∉ l) :
    fixLines cfg lines ≠ [] := by
  intro hcon
  have hA := List.append_eq_nil.mp hcon
  obtain ⟨l0, hl0⟩ := List.exists_mem_of_ne_nil lines hlne
  have hq : ¬((parseImportLine l0).isNone = true) := by
    have hall := List.filter_eq_nil_iff.mp hA.2
    exact hall l0 hl0
  obtain ⟨r0, hr0⟩ := Option.ne_none_iff_exists'.mp
    (fun hh => hq (Option.isNone_iff_eq_none.mpr hh))
  have hr0m : r0 ∈ parsedRecords lines := List.mem_filterMap.mpr ⟨l0, hl0, hr0⟩
  have hOK := parse_image_ok l0 r0 (hl l0 hl0) hr0
  obtain ⟨r1, hr1⟩ := List.exists_mem_of_ne_nil _ (splitMulti_ne_nil hOK)
  have hmem : fixNames (fixRelative cfg r1) ∈ normalizeRecords cfg (parsedRecords lines) := by
    unfold normalizeRecords
    rw [List.mem_insertionSort]
    exact List.mem_map.mpr ⟨r1, List.mem_flatten.mpr
      ⟨splitMulti r0, List.mem_map.mpr ⟨r0, hr0m, rfl⟩, hr1⟩, rfl⟩
  have hmapne : (normalizeRecords cfg (parsedRecords lines)).map renderRecord ≠ [] := by
    intro hcon2
    rw [List.map_eq_nil_iff] at hcon2
    rw [hcon2] at hmem
    exact List.not_mem_nil _ hmem
  exact hmapne hA.1

end Important

open Important in
/-- C3: for every input file text and every well-formed configuration, the
fix operation is idempotent — fixing already-fixed text yields the same
text unchanged, and running check on that fixed text yields no further
diagnostics; check itself is a pure function, so invoking it twice on the
same input yields the same diagnostics. -/
theorem c3_fix_idempotent (cfg : Configuration) (hcfg : ValidConfig cfg)
    (t : List Char) :
    fix cfg (fix cfg t) = fix cfg t
      ∧ check cfg (fix cfg t) = []
      ∧ check cfg t = check cfg t := by
  have hl : ∀ l ∈ t.splitOn '\n', '\n' ∉ l := by
    intro l hl2 hmem
    exact (splitOn_part '\n' t l hl2 '\n' hmem).2 rfl
  have hrecsOK : ∀ r ∈ parsedRecords (t.splitOn '\n'), RecordOK r := by
    intro r hr
    obtain ⟨l, hl2, hpe⟩ := List.mem_filterMap.mp hr
    exact parse_image_ok l r (hl l hl2) hpe
  obtain ⟨h1, h2, h3⟩ := parsedRecords_fixLines cfg hcfg (t.splitOn '\n') hl
  have hLne : fixLines cfg (t.splitOn '\n') ≠ [] :=
    fixLines_ne_nil cfg _ (splitOn_ne_nil '\n' t) hl
  have hsplitback : (fix cfg t).splitOn '\n' = fixLines cfg (t.splitOn '\n') := by
    show (joinSep '\n' (fixLines cfg (t.splitOn '\n'))).splitOn '\n' = _
    exact splitOn_joinSep '\n' _ h3 hLne
  refine ⟨?_, ?_, rfl⟩
  · show joinSep '\n' (fixLines cfg ((fix cfg t).splitOn '\n')) = fix cfg t
    rw [hsplitback, fixLines_idem cfg hcfg _ hl]
    rfl
  · show checkRecords cfg (parsedRecords ((fix cfg t).splitOn '\n')) = []
    rw [hsplitback, h1]
    exact checkRecords_normalized cfg _ (normalized_mem cfg hcfg _ hrecsOK)
      (normalize_sorted cfg _)

open Important in
/-- Witness for C3 at the input `import os, sys, json` with an empty
(vacuously well-formed) configuration. -/
theorem c3_fix_idempotent_witness :
    ValidConfig ⟨[], [], [], [], [], 88⟩
      ∧ (fix ⟨[], [], [], [], [], 88⟩
            (fix ⟨[], [], [], [], [], 88⟩
              ['i', 'm', 'p', 'o', 'r', 't', ' ', 'o', 's', ',', ' ', 's', 'y', 's'])
          = fix ⟨[], [], [], [], [], 88⟩
              ['i', 'm', 'p', 'o', 'r', 't', ' ', 'o', 's', ',', ' ', 's', 'y', 's']
        ∧ check ⟨[], [], [], [], [], 88⟩
            (fix ⟨[], [], [], [], [], 88⟩
              ['i', 'm', 'p', 'o', 'r', 't', ' ', 'o', 's', ',', ' ', 's', 'y', 's']) = []
        ∧ check ⟨[], [], [], [], [], 88⟩
            ['i', 'm', 'p', 'o', 'r', 't', ' ', 'o', 's', ',', ' ', 's', 'y', 's']
          = check ⟨[], [], [], [], [], 88⟩
              ['i', 'm', 'p', 'o', 'r', 't', ' ', 'o', 's', ',', ' ', 's', 'y', 's']) :=
  ⟨fun seg hseg => absurd hseg (List.not_mem_nil seg),
    c3_fix_idempotent ⟨[], [], [], [], [], 88⟩
      (fun seg hseg => absurd hseg (List.not_mem_nil seg))
      ['i', 'm', 'p', 'o', 'r', 't', ' ', 'o', 's', ',', ' ', 's', 'y', 's']⟩

namespace Important

theorem intercalate_cons₂' {α : Type} (sep : List α) (x y : List α)
    (zs : List (List α)) :
    List.intercalate sep (x :: y :: zs) = x ++ sep ++ List.intercalate sep (y :: zs) := by
  simp [List.intercalate, List.intersperse_cons_cons, List.append_assoc]

theorem cons_sep_shift {α : Type} (c s : α) (y : List α) (L : List (List α)) :
    c :: List.intercalate [c] ((s :: y) :: L) = c :: s :: List.intercalate [c] (y :: L) := by
  cases L with
  | nil => simp [List.intercalate]
  | cons l0 L2 =>
    rw [intercalate_cons₂' [c] (s :: y) l0 L2, intercalate_cons₂' [c] y l0 L2]
    simp

theorem intercalate_two_sep {α : Type} (c s : α) :
    ∀ (xs : List (List α)) (x : List α),
      List.intercalate [c, s] (x :: xs)
        = List.intercalate [c] (x :: xs.map (fun z => s :: z)) := by
  intro xs
  induction xs with
  | nil => intro x; simp [List.intercalate]
  | cons y ys ih =>
    intro x
    rw [intercalate_cons₂' [c, s] x y ys, ih y, List.map_cons,
      intercalate_cons₂' [c] x (s :: y) (ys.map fun z => s :: z)]
    rw [show x ++ [c, s] ++ List.intercalate [c] (y :: ys.map fun z => s :: z)
        = x ++ (c :: s :: List.intercalate [c] (y :: ys.map fun z => s :: z)) by
      simp [List.append_assoc]]
    rw [show x ++ [c] ++ List.intercalate [c] ((s :: y) :: ys.map fun z => s :: z)
        = x ++ (c :: List.intercalate [c] ((s :: y) :: ys.map fun z => s :: z)) by
      simp [List.append_assoc]]
    rw [cons_sep_shift]

theorem trimChars_cons_space (x : List Char) (hx : ∀ a ∈ x, a ≠ ' ') :
    trimChars (' ' :: x) = x := by
  unfold trimChars
  rw [List.dropWhile_cons, if_pos (by decide)]
  rw [dropWhile_eq_self_of _ x (fun a ha => by simp [hx a ha]),
    dropWhile_eq_self_of _ x.reverse
      (fun a ha => by simp [hx a (List.mem_reverse.mp ha)]),
    List.reverse_reverse]

end Important

open Important in
/-- C4: a single physical line importing multiple top-level modules yields
exactly one plain ImportRecord carrying all module paths, the
no-multiple-imports rule fires on it, and its fix splits it into one
plain statement per module, each on its own line, preserving the
modules' original relative order. -/
theorem c4_no_multiple_imports_split (ms : List (List (List Char)))
    (hlen : 1 < ms.length)
    (hms : ∀ m ∈ ms, m ≠ [] ∧ ∀ seg ∈ m, '.' ∉ seg ∧ ',' ∉ seg ∧ ' ' ∉ seg) :
    parseImportLine (importKeyword ++ ' '
        :: List.intercalate [',', ' '] (ms.map (joinSep '.')))
      = some ⟨ImportKind.plain, 0, ms, [], EnclosingContext.top_level⟩
      ∧ noMultipleImportsViolation
          ⟨ImportKind.plain, 0, ms, [], EnclosingContext.top_level⟩ = true
      ∧ splitMulti ⟨ImportKind.plain, 0, ms, [], EnclosingContext.top_level⟩
          = ms.map (fun m =>
            ⟨ImportKind.plain, 0, [m], [], EnclosingContext.top_level⟩)
      ∧ (splitMulti ⟨ImportKind.plain, 0, ms, [], EnclosingContext.top_level⟩).length
          = ms.length
      ∧ splitMultiFixText ⟨ImportKind.plain, 0, ms, [], EnclosingContext.top_level⟩
          = joinSep '\n' (ms.map fun m => importKeyword ++ ' ' :: joinSep '.' m) := by
  have hnosp : ∀ m ∈ ms, ∀ a ∈ joinSep '.' m, a ≠ ' ' := by
    intro m hm a ha
    rcases mem_joinSep ha with h | ⟨seg, hseg, hseg2⟩
    · subst h; decide
    · exact fun hh => ((hms m hm).2 seg hseg).2.2 (hh ▸ hseg2)
  have hnocomma : ∀ m ∈ ms, ',' ∉ joinSep '.' m := by
    intro m hm
    exact not_mem_joinSep (by decide) fun seg hseg => ((hms m hm).2 seg hseg).2.1
  obtain ⟨m0, mtl, hms0⟩ := List.exists_cons_of_ne_nil
    (show ms ≠ [] by intro h; rw [h] at hlen; simp at hlen)
  refine ⟨?_, ?_, ?_, ?_, ?_⟩
  · have hrest : List.intercalate [',', ' '] (ms.map (joinSep '.'))
        = List.intercalate [','] (joinSep '.' m0
            :: (mtl.map (joinSep '.')).map (fun z => ' ' :: z)) := by
      rw [hms0, List.map_cons, intercalate_two_sep]
    have hsplit : (List.intercalate [',', ' '] (ms.map (joinSep '.'))).splitOn ','
        = joinSep '.' m0 :: (mtl.map (joinSep '.')).map (fun z => ' ' :: z) := by
      rw [hrest]
      apply splitOn_joinSep
      · intro x hx
        rcases List.mem_cons.mp hx with h | h
        · subst h
          exact hnocomma m0 (hms0 ▸ List.mem_cons_self _ _)
        · obtain ⟨z, hz, hze⟩ := List.mem_map.mp h
          obtain ⟨m, hm, hme⟩ := List.mem_map.mp hz
          subst hze hme
          intro hmem
          rcases List.mem_cons.mp hmem with h2 | h2
          · exact absurd h2 (by decide)
          · exact hnocomma m (hms0 ▸ List.mem_cons_of_mem _ hm) h2
      · exact List.cons_ne_nil _ _
    show parseImportLine ('i' :: 'm' :: 'p' :: 'o' :: 'r' :: 't' :: ' '
        :: List.intercalate [',', ' '] (ms.map (joinSep '.'))) = _
    simp only [parseImportLine, hsplit, Option.some_inj]
    have hback : ∀ m ∈ ms, (trimChars (joinSep '.' m)).splitOn '.' = m := by
      intro m hm
      rw [trimChars_eq_self (hnosp m hm)]
      exact splitOn_joinSep '.' m (fun seg hseg => ((hms m hm).2 seg hseg).1)
        (hms m hm).1
    have hbacksp : ∀ m ∈ mtl, (trimChars (' ' :: joinSep '.' m)).splitOn '.' = m := by
      intro m hm
      rw [trimChars_cons_space _ (hnosp m (hms0 ▸ List.mem_cons_of_mem _ hm))]
      exact splitOn_joinSep '.' m
        (fun seg hseg => ((hms m (hms0 ▸ List.mem_cons_of_mem _ hm)).2 seg hseg).1)
        (hms m (hms0 ▸ List.mem_cons_of_mem _ hm)).1
    rw [List.map_cons, List.map_map, hback m0 (hms0 ▸ List.mem_cons_self _ _)]
    have hmtl : List.map (((fun s => List.splitOn '.' (trimChars s)) ∘ fun z => ' ' :: z)
        ∘ joinSep '.') mtl = mtl := by
      calc List.map (((fun s => List.splitOn '.' (trimChars s)) ∘ fun z => ' ' :: z)
            ∘ joinSep '.') mtl
          = List.map (fun m => List.splitOn '.' (trimChars (' ' :: joinSep '.' m))) mtl :=
            rfl
        _ = List.map (fun a => a) mtl := List.map_congr_left hbacksp
        _ = mtl := List.map_id' mtl
    rw [List.map_map, hmtl, hms0]
  · simp [noMultipleImportsViolation, hlen]
  · rfl
  · simp [splitMulti]
  · unfold splitMultiFixText
    show joinSep '\n' ((ms.map fun p =>
      (⟨ImportKind.plain, 0, [p], [], EnclosingContext.top_level⟩
        : ImportRecord)).map renderRecord) = _
    rw [List.map_map]
    congr 1
    apply List.map_congr_left
    intro m _
    show importKeyword ++ ' ' :: joinSep ',' [joinSep '.' m] = _
    rw [joinSep_singleton]

open Important in
/-- Witness for C4 at `import os, sys, json`. -/
theorem c4_no_multiple_imports_split_witness :
    1 < ([[['o', 's']], [['s', 'y', 's']], [['j', 's', 'o', 'n']]]
        : List (List (List Char))).length
      ∧ (parseImportLine (importKeyword ++ ' '
            :: List.intercalate [',', ' ']
              (([[['o', 's']], [['s', 'y', 's']], [['j', 's', 'o', 'n']]]
                : List (List (List Char))).map (joinSep '.')))
          = some ⟨ImportKind.plain, 0,
              [[['o', 's']], [['s', 'y', 's']], [['j', 's', 'o', 'n']]], [],
              EnclosingContext.top_level⟩
        ∧ noMultipleImportsViolation
            ⟨ImportKind.plain, 0,
              [[['o', 's']], [['s', 'y', 's']], [['j', 's', 'o', 'n']]], [],
              EnclosingContext.top_level⟩ = true
        ∧ splitMulti ⟨ImportKind.plain, 0,
              [[['o', 's']], [['s', 'y', 's']], [['j', 's', 'o', 'n']]], [],
              EnclosingContext.top_level⟩
            = ([[['o', 's']], [['s', 'y', 's']], [['j', 's', 'o', 'n']]]
                : List (List (List Char))).map (fun m =>
                  ⟨ImportKind.plain, 0, [m], [], EnclosingContext.top_level⟩)
        ∧ (splitMulti ⟨ImportKind.plain, 0,
              [[['o', 's']], [['s', 'y', 's']], [['j', 's', 'o', 'n']]], [],
              EnclosingContext.top_level⟩).length
            = ([[['o', 's']], [['s', 'y', 's']], [['j', 's', 'o', 'n']]]
                : List (List (List Char))).length
        ∧ splitMultiFixText ⟨ImportKind.plain, 0,
              [[['o', 's']], [['s', 'y', 's']], [['j', 's', 'o', 'n']]], [],
              EnclosingContext.top_level⟩
            = joinSep '\n' (([[['o', 's']], [['s', 'y', 's']], [['j', 's', 'o', 'n']]]
                : List (List (List Char))).map fun m =>
                  importKeyword ++ ' ' :: joinSep '.' m)) :=
  ⟨by decide,
    c4_no_multiple_imports_split
      [[['o', 's']], [['s', 'y', 's']], [['j', 's', 'o', 'n']]]
      (by decide) (by decide)⟩

namespace Important

theorem head_of_takeWhile_nil {α : Type} (p : α → Bool) (l : List α) (c : α)
    (ht : l.takeWhile p = []) (hh : l.head? = some c) : p c = false := by
  cases l with
  | nil => simp at hh
  | cons x xs =>
    simp only [List.head?_cons, Option.some_inj] at hh
    rw [List.takeWhile_cons] at ht
    by_cases hp : p x
    · rw [if_pos hp] at ht
      exact absurd ht (List.cons_ne_nil _ _)
    · rw [← hh]
      simpa using hp

end Important

open Important in
/-- C5: a record with `is_relative > 0` triggers the no-relative-imports
rule; its fix strips all leading dots (`is_relative` becomes 0) and
rewrites each path as an absolute path resolved from the file's package
path, so the fixed statement's module reference has no leading dot. -/
theorem c5_relative_import_fix (cfg : Configuration) (hcfg : ValidConfig cfg)
    (r : ImportRecord) (hrel : 0 < r.is_relative) :
    noRelativeImportsViolation r = true
      ∧ (fixRelative cfg r).is_relative = 0
      ∧ (fixRelative cfg r).paths = r.paths.map (fun p =>
          cfg.packagePath.take (cfg.packagePath.length + 1 - r.is_relative) ++ p)
      ∧ (∀ p, r.paths = [p] → FromPathOK p →
          ∀ c, (List.replicate (fixRelative cfg r).is_relative '.'
              ++ joinSep '.' ((fixRelative cfg r).paths.headD [])).head? = some c →
            c ≠ '.') := by
  have h0 : ¬r.is_relative = 0 := by omega
  have hfr : fixRelative cfg r = { r with is_relative := 0, paths := r.paths.map (resolveRelative cfg.packagePath r.is_relative) } := by
    simp [fixRelative, h0]
  refine ⟨by simp [noRelativeImportsViolation, hrel], by rw [hfr], ?_, ?_⟩
  · rw [hfr]
    rfl
  intro p hp hFP c hc
  rw [hfr, hp] at hc
  simp only [List.map_cons, List.map_nil, List.headD_cons] at hc
  have hres := fromPathOK_resolve cfg hcfg r.is_relative p hFP
  obtain ⟨_, _, htake⟩ := hres
  have hpc := head_of_takeWhile_nil _ _ c htake (by simpa using hc)
  simpa using hpc

open Important in
/-- Witness for C5 at `from .errors import AppError` inside package `sp`. -/
theorem c5_relative_import_fix_witness :
    ValidConfig ⟨[], [], [], [], [['s', 'p']], 88⟩
      ∧ 0 < (⟨ImportKind.fromImport, 1, [[['e', 'r', 'r', 'o', 'r', 's']]], [['A']],
          EnclosingContext.top_level⟩ : ImportRecord).is_relative
      ∧ (noRelativeImportsViolation
            ⟨ImportKind.fromImport, 1, [[['e', 'r', 'r', 'o', 'r', 's']]], [['A']],
              EnclosingContext.top_level⟩ = true
          ∧ (fixRelative ⟨[], [], [], [], [['s', 'p']], 88⟩
              ⟨ImportKind.fromImport, 1, [[['e', 'r', 'r', 'o', 'r', 's']]], [['A']],
                EnclosingContext.top_level⟩).is_relative = 0
          ∧ (fixRelative ⟨[], [], [], [], [['s', 'p']], 88⟩
              ⟨ImportKind.fromImport, 1, [[['e', 'r', 'r', 'o', 'r', 's']]], [['A']],
                EnclosingContext.top_level⟩).paths
              = ([[['e', 'r', 'r', 'o', 'r', 's']]]
                  : List (List (List Char))).map (fun p =>
                  (⟨[], [], [], [], [['s', 'p']], 88⟩
                    : Configuration).packagePath.take
                      ((⟨[], [], [], [], [['s', 'p']], 88⟩
                        : Configuration).packagePath.length + 1 - 1) ++ p)
          ∧ (∀ p, ([[['e', 'r', 'r', 'o', 'r', 's']]] : List (List (List Char))) = [p] →
              FromPathOK p →
              ∀ c, (List.replicate (fixRelative ⟨[], [], [], [], [['s', 'p']], 88⟩
                    ⟨ImportKind.fromImport, 1, [[['e', 'r', 'r', 'o', 'r', 's']]],
                      [['A']], EnclosingContext.top_level⟩).is_relative '.'
                  ++ joinSep '.' ((fixRelative ⟨[], [], [], [], [['s', 'p']], 88⟩
                    ⟨ImportKind.fromImport, 1, [[['e', 'r', 'r', 'o', 'r', 's']]],
                      [['A']], EnclosingContext.top_level⟩).paths.headD [])).head?
                    = some c → c ≠ '.')) :=
  ⟨by unfold ValidConfig; decide, by decide,
    c5_relative_import_fix ⟨[], [], [], [], [['s', 'p']], 88⟩
      (by unfold ValidConfig; decide)
      ⟨ImportKind.fromImport, 1, [[['e', 'r', 'r', 'o', 'r', 's']]], [['A']],
        EnclosingContext.top_level⟩ (by decide)⟩

open Important in
/-- C6: in the fixed output, any two records of the same module category
appear in ascending, case-sensitive alphabetical order of their full dotted
module paths; and a from-import's names are sorted alphabetically,
case-sensitively, before any wrapping decision is made (the wrapping step
consumes the sorted name list). -/
theorem c6_ordering_invariant (cfg : Configuration) (records : List ImportRecord)
    (r : ImportRecord) :
    (∀ i j : Fin (normalizeRecords cfg records).length, i < j →
        recCategory cfg ((normalizeRecords cfg records).get i)
          = recCategory cfg ((normalizeRecords cfg records).get j) →
        lexLeb (moduleKey ((normalizeRecords cfg records).get i))
          (moduleKey ((normalizeRecords cfg records).get j)) = true)
      ∧ (wrapFromImport cfg r).names = sortNames r.imported_names
      ∧ List.Sorted (fun a b => lexLeb a b = true) (wrapFromImport cfg r).names
      ∧ List.Perm (wrapFromImport cfg r).names r.imported_names := by
  refine ⟨?_, rfl, sortNames_sorted _, sortNames_perm _⟩
  intro i j hij hcat
  have hs := normalize_sorted cfg records
  have hp := hs.rel_get_of_lt hij
  unfold recLeb at hp
  simp only [Bool.or_eq_true, Bool.and_eq_true, decide_eq_true_eq] at hp
  rcases hp with hlt | ⟨_, hle⟩
  · rw [hcat] at hlt
    exact absurd hlt (lt_irrefl _)
  · exact hle
